import Mathlib

/-!
Shallow embedding of the find_dups storage pipeline and index
(src/lib.rs, src/archive.rs, src/record.rs, src/file.rs).

Byte vectors are `List Nat`; machine integers are `Nat`, with the points where
usize arithmetic can underflow (and hence panic in the source) made explicit;
fallible or panicking code returns `Option`.  The LZ4 `compress`/`decompress`
functions come from an external crate, so the embedding is parameterized over
them.  Disk segment files are modelled as an association list from serial
number to content, carried inside the `Archive` state.
-/

namespace FindDups

/-- Constant RECORD_SIZE from src/lib.rs (64 KiB). -/
def RECORD_SIZE : Nat := 64 * 1024

/-- Constant CHUNK_SIZE from src/lib.rs (64 KiB). -/
def CHUNK_SIZE : Nat := 64 * 1024

/-- Constant MAX_COMPRESSED_CHUNK_SIZE from src/lib.rs (LZ4 worst case for 64 KiB). -/
def MAX_COMPRESSED_CHUNK_SIZE : Nat := 64 * 1024 + 384

/-- Constant ARCHIVE_SIZE from src/lib.rs (4 MiB). -/
def ARCHIVE_SIZE : Nat := 4 * 1024 * 1024

/-- Struct ArchiveLocation from src/archive.rs. -/
structure ArchiveLocation where
  archive_set : Nat
  set_offset : Nat
deriving DecidableEq

/-- Struct Archive from src/archive.rs.  The `disk` field models the segment
files written so far, as pairs of serial number and file content (the task
counters, which only sequence the background writes, are not represented:
in the model a flush persists its segment immediately). -/
structure Archive where
  limit : Nat
  write_buffer : List Nat
  write_serial_number : Nat
  read_buffer : Option (List Nat)
  read_serial_number : Nat
  read_offset : Nat
  disk : List (Nat × List Nat)
deriving DecidableEq

/-- Function Archive::new from src/archive.rs. -/
def Archive.new (limit : Nat) : Archive :=
  { limit := limit
    write_buffer := []
    write_serial_number := 0
    read_buffer := none
    read_serial_number := 0
    read_offset := 0
    disk := [] }

/-- Function Archive::write_location from src/archive.rs. -/
def Archive.write_location (a : Archive) : ArchiveLocation :=
  if a.write_buffer.length + MAX_COMPRESSED_CHUNK_SIZE > a.limit then
    { archive_set := a.write_serial_number + 1, set_offset := 0 }
  else
    { archive_set := a.write_serial_number, set_offset := a.write_buffer.length }

/-- Function Archive::flush from src/archive.rs: if the buffer is non-empty,
persist it as the segment file named by the current serial number, bump the
serial and reset the buffer. -/
def Archive.flush (a : Archive) : Archive :=
  if a.write_buffer.length > 0 then
    { a with
      disk := a.disk ++ [(a.write_serial_number, a.write_buffer)]
      write_serial_number := a.write_serial_number + 1
      write_buffer := [] }
  else a

/-- Function Archive::write from src/archive.rs.  The source asserts
`v.len() < MAX_COMPRESSED_CHUNK_SIZE`; an assertion failure is `none`. -/
def Archive.write (a : Archive) (v : List Nat) : Option Archive :=
  if v.length < MAX_COMPRESSED_CHUNK_SIZE then
    let a1 := if a.write_buffer.length + MAX_COMPRESSED_CHUNK_SIZE > a.limit then a.flush else a
    some { a1 with write_buffer := a1.write_buffer ++ v }
  else
    none

/-- Function Archive::finish from src/archive.rs: flush, then wait for the
background write tasks (waiting has no effect on the modelled state). -/
def Archive.finish (a : Archive) : Archive := a.flush

/-- Function read_file from src/archive.rs, against the modelled disk:
opening a segment file that was never written yields None. -/
def Archive.read_file (a : Archive) (serial : Nat) : Option (List Nat) :=
  (a.disk.find? (fun p => p.1 == serial)).map Prod.snd

/-- Function Archive::read from src/archive.rs.  Returns the read bytes (or
none at end-of-stream / when the request crosses the segment end) together
with the updated archive state. -/
def Archive.read (a : Archive) (len : Nat) : Option (List Nat) × Archive :=
  let a1 :=
    if a.read_buffer.isNone ∨ (a.read_buffer.getD []).length < a.read_offset + len then
      let serial :=
        if a.read_buffer.isSome then a.read_serial_number + 1 else a.read_serial_number
      { a with
        read_serial_number := serial
        read_offset := 0
        read_buffer := a.read_file serial }
    else a
  match a1.read_buffer with
  | some buf =>
    let offset := a1.read_offset
    let a2 := { a1 with read_offset := offset + len }
    if offset + len > buf.length then (none, a2)
    else (some ((buf.drop offset).take len), a2)
  | none => (none, a1)

/-- Function Archive::seek from src/archive.rs. -/
def Archive.seek (a : Archive) (location : ArchiveLocation) : Archive :=
  { a with
    read_buffer := none
    read_serial_number := location.archive_set
    read_offset := location.set_offset }

/-- Struct ReadBuf from src/record.rs. -/
structure ReadBuf where
  data : Option (List Nat)
  pos : Nat
deriving DecidableEq

/-- Function ReadBuf::new from src/record.rs. -/
def ReadBuf.new : ReadBuf := { data := none, pos := 0 }

/-- Function ReadBuf::new_with_data from src/record.rs. -/
def ReadBuf.new_with_data (d : List Nat) : ReadBuf := { data := some d, pos := 0 }

/-- Function ReadBuf::len_left from src/record.rs. -/
def ReadBuf.len_left (r : ReadBuf) : Nat :=
  match r.data with
  | some d => d.length - r.pos
  | none => 0

/-- Function ReadBuf::get_slice from src/record.rs; the source panics when no
data is present or fewer than `len` bytes remain (modelled as none). -/
def ReadBuf.get_slice (r : ReadBuf) (len : Nat) : Option (List Nat × ReadBuf) :=
  match r.data with
  | none => none
  | some d =>
    if len > d.length - r.pos then none
    else
      let ret := (d.drop r.pos).take len
      if len = d.length - r.pos then some (ret, { data := none, pos := 0 })
      else some (ret, { data := some d, pos := r.pos + len })

/-- Function ReadBuf::extend_from_slice from src/record.rs; the source panics
when no data is present (modelled as none). -/
def ReadBuf.extend_from_slice (r : ReadBuf) (v : List Nat) : Option ReadBuf :=
  match r.data with
  | some d => some { data := some (d ++ v), pos := r.pos }
  | none => none

/-- Function slice_u8_to_usize from src/record.rs.  Callers always pass
exactly four bytes; the source would panic on a shorter slice, which the
`getD` default can never produce for the call sites modelled here. -/
def slice_u8_to_usize (b : List Nat) : Nat :=
  b.getD 0 0 ||| (b.getD 1 0 <<< 8) ||| (b.getD 2 0 <<< 16) ||| (b.getD 3 0 <<< 24)

/-- Function usize_to_slice_u8 from src/record.rs. -/
def usize_to_slice_u8 (len : Nat) : List Nat :=
  [len &&& 0xff, (len >>> 8) &&& 0xff, (len >>> 16) &&& 0xff, (len >>> 24) &&& 0xff]

/-- Struct RecordLocation from src/record.rs. -/
structure RecordLocation where
  archive_location : ArchiveLocation
  uncompressed_offset : Nat
deriving DecidableEq

/-- Struct Record from src/record.rs.  The `flushLog` field is ghost
instrumentation recording the length of the uncompressed write buffer at each
compressing flush; it influences no behavior. -/
structure Record where
  write_buffer : List Nat
  read_buffer : ReadBuf
  limit : Nat
  read_offset : Nat
  archive : Archive
  flushLog : List Nat
deriving DecidableEq

/-- Function Record::new from src/record.rs. -/
def Record.new (file_limit record_limit : Nat) : Record :=
  { write_buffer := []
    read_buffer := ReadBuf.new
    limit := record_limit
    read_offset := 0
    archive := Archive.new file_limit
    flushLog := [] }

/-- Function Record::flush from src/record.rs: compress the non-empty buffer,
write the compressed length then the compressed data to the archive, reset
the buffer.  Parameterized over the external LZ4 block compressor. -/
def Record.flush (compress : List Nat → List Nat) (r : Record) : Option Record :=
  if r.write_buffer.length > 0 then
    let compressed := compress r.write_buffer
    match r.archive.write (usize_to_slice_u8 compressed.length) with
    | none => none
    | some a1 =>
      match a1.write compressed with
      | none => none
      | some a2 =>
        some { r with
               archive := a2
               write_buffer := []
               flushLog := r.flushLog ++ [r.write_buffer.length] }
  else some r

/-- While loop inside Record::push from src/record.rs (the full-record
splitting of large items).  `fuel` bounds the iteration count: each source
iteration either advances `vpos` or empties the buffer, so `2 * v.length + 2`
steps cover every terminating source execution; with `limit = 0` the source
loops forever and the model returns none.  The source computes
`space = self.limit - self.write_buffer.len()` in usize arithmetic, which
panics when the buffer is longer than the limit; that is the first test
below. -/
def Record.pushLoop (compress : List Nat → List Nat) (v : List Nat) :
    Nat → Nat → Record → Option Record
  | 0, _, _ => none
  | fuel + 1, vpos, r =>
    if v.length - vpos > r.limit then
      if r.limit < r.write_buffer.length then none
      else
        let space := r.limit - r.write_buffer.length
        match Record.flush compress
            { r with write_buffer := r.write_buffer ++ (v.drop vpos).take space } with
        | none => none
        | some r2 => Record.pushLoop compress v fuel (vpos + space) r2
    else
      some { r with write_buffer := r.write_buffer ++ v.drop vpos }

/-- Function Record::push from src/record.rs. -/
def Record.push (compress : List Nat → List Nat) (r : Record) (v : List Nat) :
    Option (RecordLocation × Record) :=
  let r0 :=
    if v.length ≤ r.limit ∧ r.write_buffer.length + v.length > r.limit then
      Record.flush compress r
    else some r
  match r0 with
  | none => none
  | some r1 =>
    let ret : RecordLocation :=
      { archive_location := r1.archive.write_location
        uncompressed_offset := r1.write_buffer.length }
    let r2 := { r1 with write_buffer := r1.write_buffer ++ usize_to_slice_u8 v.length }
    match Record.pushLoop compress v (2 * v.length + 2) 0 r2 with
    | none => none
    | some r3 => some (ret, r3)

/-- Function Record::finish from src/record.rs: flush at the record level,
then finish the archive. -/
def Record.finish (compress : List Nat → List Nat) (r : Record) : Option Record :=
  match Record.flush compress r with
  | none => none
  | some r1 => some { r1 with archive := r1.archive.finish }

/-- Function Record::read_next_record from src/record.rs, parameterized over
the external LZ4 block decompressor (a decompression error is none). -/
def Record.read_next_record (decompress : List Nat → Option (List Nat)) (r : Record) :
    Option Record :=
  match r.archive.read 4 with
  | (some clenbuf, a1) =>
    let clen := slice_u8_to_usize clenbuf
    match a1.read clen with
    | (some cbuf, a2) =>
      match decompress cbuf with
      | some ucbuf =>
        if r.read_buffer.data.isNone then
          some { r with archive := a2, read_buffer := ReadBuf.new_with_data ucbuf }
        else
          match r.read_buffer.extend_from_slice ucbuf with
          | some rb => some { r with archive := a2, read_buffer := rb }
          | none => none
      | none => none
    | (none, _) => none
  | (none, a1) => some { r with archive := a1 }

/-- While loop inside Record::pull from src/record.rs (keep reading records
until `bytes_to_get` bytes are available).  The source's loop is unbounded
and diverges when the archive is exhausted mid-item; the fuel passed by
`Record.pull` suffices whenever each record contributes at least one byte. -/
def Record.pullLoop (decompress : List Nat → Option (List Nat)) (bytes_to_get : Nat) :
    Nat → Record → Option Record
  | 0, _ => none
  | fuel + 1, r =>
    if bytes_to_get > r.read_buffer.len_left then
      match Record.read_next_record decompress r with
      | some r1 => Record.pullLoop decompress bytes_to_get fuel r1
      | none => none
    else some r

/-- Function Record::pull from src/record.rs. -/
def Record.pull (decompress : List Nat → Option (List Nat)) (r : Record) :
    Option (Option (List Nat) × Record) :=
  let r0 :=
    if r.read_buffer.data.isNone then Record.read_next_record decompress r else some r
  match r0 with
  | none => none
  | some r1 =>
    if r1.read_buffer.data.isNone then some (none, r1)
    else
      match r1.read_buffer.get_slice 4 with
      | none => none
      | some (lenb, rb2) =>
        let bytes_to_get := slice_u8_to_usize lenb
        let r2 := { r1 with read_buffer := rb2 }
        match Record.pullLoop decompress bytes_to_get (bytes_to_get + 1) r2 with
        | none => none
        | some r3 =>
          match r3.read_buffer.get_slice bytes_to_get with
          | none => none
          | some (ret, rb4) => some (some ret, { r3 with read_buffer := rb4 })

/-- Function Record::seek from src/record.rs: it only repositions the archive
read state; the record-level read buffer and `read_offset` are untouched. -/
def Record.seek (r : Record) (location : ArchiveLocation) : Record :=
  { r with archive := r.archive.seek location }

/-- Iterated Record::push over a list of items (discarding the returned
locations), used to state properties of push sequences. -/
def pushAll (compress : List Nat → List Nat) (r : Record) : List (List Nat) → Option Record
  | [] => some r
  | v :: vs =>
    match Record.push compress r v with
    | none => none
    | some (_, r1) => pushAll compress r1 vs

/-- Iterated Archive::write over a list of blocks, used to state properties
of write sequences. -/
def writeAll (a : Archive) : List (List Nat) → Option Archive
  | [] => some a
  | v :: vs =>
    match a.write v with
    | none => none
    | some a1 => writeAll a1 vs

/-- Struct Entry from src/file.rs (u32/u64 fields become Nat). -/
structure Entry where
  perm : Nat
  uid : Nat
  gid : Nat
  mod_secs : Nat
  mod_nanos : Nat
  is_file : Bool
  is_dir : Bool
  len : Nat
  name : String
deriving DecidableEq

/-- Struct Config from src/lib.rs, restricted to the fields FileStore reads
(the remaining fields only drive printing and scheduling).  The `prune` field
is modelled from the spec: src/file.rs reads `self.config.prune`, but the
Config struct in src/lib.rs does not declare that flag; the spec's `--prune`
mode supplies its meaning. -/
structure Config where
  injest : Bool
  missing : Bool
  present : Bool
  duplicate : Bool
  prune : Bool
deriving DecidableEq

/-- Loop inside hash_file from src/file.rs: hash full CHUNK_SIZE chunks while
`pos + CHUNK_SIZE < len`, then hash the remaining tail bytes (read_to_end).
`content` stands for the bytes of the file being read. -/
def hashChunks (H : List Nat → Nat) (content : List Nat) (len : Nat) (pos : Nat) :
    List Nat :=
  if pos + CHUNK_SIZE < len then
    H ((content.drop pos).take CHUNK_SIZE) :: hashChunks H content len (pos + CHUNK_SIZE)
  else
    [H (content.drop pos)]
termination_by len - pos
decreasing_by
  have hc : 0 < CHUNK_SIZE := by decide
  omega

/-- Function hash_file from src/file.rs, parameterized over the external
seahash function `H` and taking the file content in place of the path. -/
def hash_file (H : List Nat → Nat) (content : List Nat) (len : Nat) : List Nat :=
  hashChunks H content len 0

/-- XOR fold over the chunk hashes from FileStore::add_file in src/file.rs
(`vec.iter().fold(entry.len, |acc, x| acc ^ x)`). -/
def fingerprint (H : List Nat → Nat) (content : List Nat) (len : Nat) : Nat :=
  (hash_file H content len).foldl (fun acc x => acc ^^^ x) len

/-- Hash computation for one entry in FileStore::add_file from src/file.rs:
regular files get the chunked XOR fold, directories and other objects get 0. -/
def entryFingerprint (H : List Nat → Nat) (e : Entry) (content : List Nat) : Nat :=
  if e.is_file then fingerprint H content e.len
  else if e.is_dir then 0
  else 0

/-- Lookup in the FileIndex (DashMap modelled as an association list whose
most recent insertion comes first). -/
def idxGet (m : List (Entry × Nat)) (k : Entry) : Option Nat :=
  (m.find? (fun p => p.1 == k)).map Prod.snd

/-- Key test in the FileIndex. -/
def idxContains (m : List (Entry × Nat)) (k : Entry) : Bool :=
  (m.find? (fun p => p.1 == k)).isSome

/-- Insertion in the FileIndex (DashMap insert overwrites the key). -/
def idxInsert (m : List (Entry × Nat)) (k : Entry) (v : Nat) : List (Entry × Nat) :=
  (k, v) :: m.filter (fun p => !(p.1 == k))

/-- Lookup in the HashIndex. -/
def hidxGet (m : List (Nat × List Entry)) (h : Nat) : Option (List Entry) :=
  (m.find? (fun p => p.1 == h)).map Prod.snd

/-- Key test in the HashIndex. -/
def hidxContains (m : List (Nat × List Entry)) (h : Nat) : Bool :=
  (m.find? (fun p => p.1 == h)).isSome

/-- Removal from the HashIndex. -/
def hidxRemove (m : List (Nat × List Entry)) (h : Nat) : List (Nat × List Entry) :=
  m.filter (fun p => !(p.1 == h))

/-- Insertion in the HashIndex (DashMap insert overwrites the key). -/
def hidxInsert (m : List (Nat × List Entry)) (h : Nat) (l : List Entry) :
    List (Nat × List Entry) :=
  (h, l) :: hidxRemove m h

/-- Membership in the PresentSet (DashSet modelled as a duplicate-free list). -/
def presentContains (s : List Entry) (e : Entry) : Bool :=
  s.contains e

/-- Insertion in the PresentSet. -/
def presentInsert (s : List Entry) (e : Entry) : List Entry :=
  if s.contains e then s else e :: s

/-- Struct FileStore from src/file.rs: the two indexes, the configuration and
the PresentSet (the backing Record is passed separately where needed). -/
structure FileStore where
  index : List (Entry × Nat)
  hindex : List (Nat × List Entry)
  config : Config
  present : List Entry
deriving DecidableEq

/-- Function FileStore::new from src/file.rs (fresh empty indexes). -/
def FileStore.new (config : Config) : FileStore :=
  { index := [], hindex := [], config := config, present := [] }

/-- Function FileStore::add_file from src/file.rs.  `content` stands for the
bytes of the file at the path and `H` for the external seahash, abstracting
the file-system read in hash_file; printing is dropped.  In the
already-present branch with `present` or `missing` configured, the source
calls `self.hindex.get(&hash).unwrap()`, which panics when the stored hash
has no HashIndex list; that panic is `none`. -/
def FileStore.add_file (H : List Nat → Nat) (fs : FileStore) (e : Entry)
    (content : List Nat) : Option FileStore :=
  if idxContains fs.index e then
    let q : Option Unit :=
      if fs.config.present || fs.config.missing then
        match idxGet fs.index e with
        | none => none
        | some hash => if hidxContains fs.hindex hash then some () else none
      else some ()
    match q with
    | none => none
    | some _ =>
      if fs.config.prune then some { fs with present := presentInsert fs.present e }
      else some fs
  else
    let hash := entryFingerprint H e content
    if fs.config.injest then
      let fs1 :=
        if fs.config.prune then { fs with present := presentInsert fs.present e } else fs
      some { fs1 with index := idxInsert fs1.index e hash }
    else some fs

/-- Loop body of FileStore::read from src/file.rs for one decoded
`(Entry, fingerprint)` pair: insert into FileIndex, then remove the
fingerprint's list, push the entry and reinsert it. -/
def FileStore.readPair (fs : FileStore) (p : Entry × Nat) : FileStore :=
  let fs1 := { fs with index := idxInsert fs.index p.1 p.2 }
  let newval :=
    match hidxGet fs1.hindex p.2 with
    | some vec => vec ++ [p.1]
    | none => [p.1]
  { fs1 with hindex := hidxInsert fs1.hindex p.2 newval }

/-- Function FileStore::read from src/file.rs over the stream of pairs that
read_item decodes until end-of-stream. -/
def FileStore.read (fs : FileStore) (pairs : List (Entry × Nat)) : FileStore :=
  pairs.foldl FileStore.readPair fs

/-- Function FileStore::prune from src/file.rs: with a non-empty PresentSet,
drop every FileIndex entry not present in it; with an empty PresentSet do
nothing.  HashIndex is never touched. -/
def FileStore.prune (fs : FileStore) : FileStore :=
  if fs.present.length > 0 then
    { fs with index := fs.index.filter (fun p => presentContains fs.present p.1) }
  else fs

/-- Function FileStore::find_dups_second_archive from src/file.rs, returning
the list of entries the source prints, in iteration order. -/
def FileStore.find_dups_second_archive (fs second : FileStore) : List Entry :=
  second.index.flatMap (fun p =>
    let present := hidxContains fs.hindex p.2
    (if fs.config.missing && !present then [p.1] else []) ++
    (if fs.config.present && present && decide (0 < p.1.len) then [p.1] else []))

/-- Invariant claimed for the dual index, stated from the claim text: every
FileIndex entry appears in exactly one HashIndex list, the one under its
fingerprint, and the list under any fingerprint used by FileIndex is exactly
the set of entries mapping to it, without duplicates. -/
def storeInv (fs : FileStore) : Prop :=
  (∀ p ∈ fs.index,
      (∃ l, hidxGet fs.hindex p.2 = some l ∧ p.1 ∈ l) ∧
      ∀ q ∈ fs.hindex, p.1 ∈ q.2 → q.1 = p.2) ∧
  (∀ h, (∃ p ∈ fs.index, p.2 = h) →
      ∃ l, hidxGet fs.hindex h = some l ∧ l.Nodup ∧
        ∀ e, e ∈ l ↔ idxGet fs.index e = some h)

/-- Strengthened inductive invariant of the dual index maintained by
FileStore::read: both maps have duplicate-free keys, every HashIndex list is
non-empty, duplicate-free and holds exactly the entries mapping to its
fingerprint, and every FileIndex fingerprint has a HashIndex list. -/
def InvFull (fs : FileStore) : Prop :=
  (fs.index.map Prod.fst).Nodup ∧
  (fs.hindex.map Prod.fst).Nodup ∧
  (∀ q ∈ fs.hindex, q.2 ≠ [] ∧ q.2.Nodup ∧
    ∀ e, e ∈ q.2 ↔ idxGet fs.index e = some q.1) ∧
  (∀ p ∈ fs.index, hidxContains fs.hindex p.2 = true)

/-- Entry used by the dual-index counterexample. -/
def eC2 : Entry :=
  { perm := 0, uid := 0, gid := 0, mod_secs := 0, mod_nanos := 0,
    is_file := true, is_dir := false, len := 0, name := "a" }

/-- Ingest-only configuration for the dual-index counterexample. -/
def cfgC2 : Config :=
  { injest := true, missing := false, present := false, duplicate := false,
    prune := false }

/-- FileStore reached after ingesting one file on a fresh store: the entry is
in FileIndex but HashIndex is empty. -/
def fsC2 : FileStore :=
  { index := [(eC2, 7)], hindex := [], config := cfgC2, present := [] }

/-- Chunk decomposition of a file as the claim words it: all full CHUNK_SIZE
chunks, then one tail chunk with the remaining bytes, the tail being empty
when the length is an exact multiple of CHUNK_SIZE. -/
def claimedChunks (c : List Nat) : List (List Nat) :=
  (List.range (c.length / CHUNK_SIZE)).map (fun i => (c.drop (i * CHUNK_SIZE)).take CHUNK_SIZE)
    ++ [c.drop (c.length / CHUNK_SIZE * CHUNK_SIZE)]

/-- Fingerprint formula as the claim words it: the length XORed with the
hash of every chunk of `claimedChunks`. -/
def claimedFingerprint (H : List Nat → Nat) (c : List Nat) : Nat :=
  (claimedChunks c).foldl (fun acc x => acc ^^^ H x) c.length

/-- Chunk decomposition the source actually computes: since the loop in
hash_file runs while `pos + CHUNK_SIZE < len`, a file whose length is a
positive exact multiple of CHUNK_SIZE yields one full chunk fewer, and its
tail is the final full chunk; only the empty file has an empty tail. -/
def codeChunks (c : List Nat) : List (List Nat) :=
  (List.range ((c.length - 1) / CHUNK_SIZE)).map
      (fun i => (c.drop (i * CHUNK_SIZE)).take CHUNK_SIZE)
    ++ [c.drop ((c.length - 1) / CHUNK_SIZE * CHUNK_SIZE)]

/-- Length-sensitive stand-in hash that distinguishes the empty chunk, for
the chunk-decomposition counterexample. -/
def hC4 : List Nat → Nat := fun l => if l.length = 0 then 1 else 0

/-- Entry of a regular file whose length is exactly CHUNK_SIZE, the shape on
which the claimed and actual chunk decompositions differ. -/
def eC4 : Entry :=
  { perm := 0, uid := 0, gid := 0, mod_secs := 0, mod_nanos := 0,
    is_file := true, is_dir := false, len := CHUNK_SIZE, name := "b" }

/-- Writer-then-reader scenario for the seek claim: push `[1]` then `[2]`
into a fresh Record (so the second item's location has a non-zero
uncompressed offset), finish, then on a fresh reader over the same archive
seek to the second location and pull once.  LZ4 is instantiated with the
identity compressor and its inverse.  Returns the second push's location and
the pulled bytes. -/
def c5Run : Option (RecordLocation × Option (List Nat)) :=
  match Record.push id (Record.new ARCHIVE_SIZE RECORD_SIZE) [1] with
  | none => none
  | some (_, r1) =>
    match Record.push id r1 [2] with
    | none => none
    | some (loc2, r2) =>
      match Record.finish id r2 with
      | none => none
      | some r3 =>
        let reader :=
          { Record.new ARCHIVE_SIZE RECORD_SIZE with
            archive := { Archive.new ARCHIVE_SIZE with disk := r3.archive.disk } }
        let reader2 := reader.seek loc2.archive_location
        match Record.pull some reader2 with
        | none => none
        | some (out, _) => some (loc2, out)

/-- Concrete FileStore for the prune witness. -/
def fsC8 : FileStore :=
  { index := [({ perm := 0, uid := 0, gid := 0, mod_secs := 0, mod_nanos := 0,
                 is_file := true, is_dir := false, len := 1, name := "a" }, 1)]
    hindex := []
    config := { injest := true, missing := false, present := false,
                duplicate := false, prune := true }
    present := [{ perm := 0, uid := 0, gid := 0, mod_secs := 0, mod_nanos := 0,
                  is_file := true, is_dir := false, len := 2, name := "b" }] }

/-- Zero-length entry for the cross-archive counterexample. -/
def eC9a : Entry :=
  { perm := 0, uid := 0, gid := 0, mod_secs := 0, mod_nanos := 0,
    is_file := true, is_dir := false, len := 0, name := "zero" }

/-- Auxiliary entry holding the shared fingerprint in the primary archive. -/
def eC9b : Entry :=
  { perm := 0, uid := 0, gid := 0, mod_secs := 0, mod_nanos := 0,
    is_file := true, is_dir := false, len := 3, name := "b" }

/-- Primary FileStore for the cross-archive counterexample, configured in
present mode, whose HashIndex holds fingerprint 5. -/
def fsC9 : FileStore :=
  { index := []
    hindex := [(5, [eC9b])]
    config := { injest := false, missing := false, present := true,
                duplicate := false, prune := false }
    present := [] }

/-- Secondary FileStore for the cross-archive counterexample: one zero-length
entry whose fingerprint 5 is present in the primary HashIndex. -/
def secondC9 : FileStore :=
  { index := [(eC9a, 5)]
    hindex := []
    config := fsC9.config
    present := [] }

/-- All-zero byte vector of a given length, used as concrete test input for
the large counterexamples (kept as its own definition so that proofs reason
about its length without expanding the list element by element). -/
def zeros (n : Nat) : List Nat := List.replicate n 0

/-- Record state after pushing a 65529-byte item into a fresh production
Record: the buffer holds the length prefix plus the item. -/
def c1St1 : Record :=
  { write_buffer := usize_to_slice_u8 65529 ++ zeros 65529
    read_buffer := ReadBuf.new
    limit := RECORD_SIZE
    read_offset := 0
    archive := Archive.new ARCHIVE_SIZE
    flushLog := [] }

/-- Record state after pushing a 65533-byte item into a fresh production
Record: the buffer holds 65537 bytes. -/
def c6St1 : Record :=
  { write_buffer := usize_to_slice_u8 65533 ++ zeros 65533
    read_buffer := ReadBuf.new
    limit := RECORD_SIZE
    read_offset := 0
    archive := Archive.new ARCHIVE_SIZE
    flushLog := [] }

/-- Record state after the overflowing flush of `c6St1`: the compressed
65537-byte block sits in the archive buffer and the ghost log records the
flushed length 65537. -/
def c6St2 : Record :=
  { write_buffer := []
    read_buffer := ReadBuf.new
    limit := RECORD_SIZE
    read_offset := 0
    archive :=
      { limit := ARCHIVE_SIZE
        write_buffer := usize_to_slice_u8 65537 ++ (usize_to_slice_u8 65533 ++ zeros 65533)
        write_serial_number := 0
        read_buffer := none
        read_serial_number := 0
        read_offset := 0
        disk := [] }
    flushLog := [65537] }

/-- Record state after pushing the single item `[1]` into a fresh production
Record (witness state for the flush-bound claim). -/
def c6WitState : Record :=
  { write_buffer := [1, 0, 0, 0, 1]
    read_buffer := ReadBuf.new
    limit := RECORD_SIZE
    read_offset := 0
    archive := Archive.new ARCHIVE_SIZE
    flushLog := [] }

/-- Archive state after one two-byte write on a fresh production archive
(witness state for the segment-size claim). -/
def c7WitState : Archive :=
  { limit := ARCHIVE_SIZE
    write_buffer := [1, 2]
    write_serial_number := 0
    read_buffer := none
    read_serial_number := 0
    read_offset := 0
    disk := [] }


end FindDups

namespace FindDups

/-! Helper lemmas. -/

/-- Length of the four-byte little-endian encoding. -/
theorem usize_to_slice_u8_length (n : Nat) : (usize_to_slice_u8 n).length = 4 := by
  simp [usize_to_slice_u8]

/-- Length of the all-zero test vector. -/
theorem zeros_length (n : Nat) : (zeros n).length = n := by
  simp [zeros]

/-- Unfolding pushAll on the empty list. -/
theorem pushAll_nil (compress : List Nat → List Nat) (r : Record) :
    pushAll compress r [] = some r := rfl

/-- Unfolding pushAll when the first push succeeds. -/
theorem pushAll_cons_some (compress : List Nat → List Nat) (r : Record) (v : List Nat)
    (vs : List (List Nat)) (loc : RecordLocation) (r1 : Record)
    (h : Record.push compress r v = some (loc, r1)) :
    pushAll compress r (v :: vs) = pushAll compress r1 vs := by
  simp only [pushAll, h]

/-- Unfolding pushAll when the first push panics. -/
theorem pushAll_cons_none (compress : List Nat → List Nat) (r : Record) (v : List Nat)
    (vs : List (List Nat)) (h : Record.push compress r v = none) :
    pushAll compress r (v :: vs) = none := by
  simp only [pushAll, h]

/-- One step of the push loop when the remaining item fits in a record:
append the tail and stop. -/
theorem pushLoop_stop (compress : List Nat → List Nat) (v : List Nat)
    (fuel vpos : Nat) (r : Record) (hf : fuel ≠ 0)
    (h : ¬ v.length - vpos > r.limit) :
    Record.pushLoop compress v fuel vpos r =
      some { r with write_buffer := r.write_buffer ++ v.drop vpos } := by
  cases fuel with
  | zero => exact absurd rfl hf
  | succ n => simp [Record.pushLoop, h]

/-- One step of the push loop when the remaining item exceeds the record
limit while the buffer already exceeds the limit: the source's usize
subtraction `limit - buffer.len()` underflows and the process panics. -/
theorem pushLoop_panic (compress : List Nat → List Nat) (v : List Nat)
    (fuel vpos : Nat) (r : Record) (hf : fuel ≠ 0)
    (h1 : v.length - vpos > r.limit) (h2 : r.limit < r.write_buffer.length) :
    Record.pushLoop compress v fuel vpos r = none := by
  cases fuel with
  | zero => rfl
  | succ n => simp [Record.pushLoop, h1, h2]

/-- Evaluation of Record::push for an item that fits in the remaining record
space: no flush happens, the length prefix and the item are appended. -/
theorem push_small_eval (compress : List Nat → List Nat) (r : Record) (v : List Nat)
    (h1 : v.length ≤ r.limit) (h2 : r.write_buffer.length + v.length ≤ r.limit) :
    Record.push compress r v =
      some ({ archive_location := r.archive.write_location,
              uncompressed_offset := r.write_buffer.length },
            { r with write_buffer := (r.write_buffer ++ usize_to_slice_u8 v.length) ++ v }) := by
  have hc : (v.length ≤ r.limit ∧ r.write_buffer.length + v.length > r.limit) = False := by
    simp only [eq_iff_iff, iff_false]
    omega
  have hstop := pushLoop_stop compress v (2 * v.length + 2) 0
    { r with write_buffer := r.write_buffer ++ usize_to_slice_u8 v.length }
    (by omega) (by show ¬ v.length - 0 > r.limit; omega)
  simp only [Record.push, hc, if_false, hstop, List.drop_zero]

/-- Evaluation of Record::push for an item larger than the record limit when
the buffer plus the four-byte prefix already exceeds the limit: the split
loop underflows `limit - buffer.len()` and the source panics. -/
theorem push_large_panic (compress : List Nat → List Nat) (r : Record) (v : List Nat)
    (h1 : r.limit < v.length) (h2 : r.limit < r.write_buffer.length + 4) :
    Record.push compress r v = none := by
  have hc : (v.length ≤ r.limit ∧ r.write_buffer.length + v.length > r.limit) = False := by
    simp only [eq_iff_iff, iff_false]
    omega
  have hpanic := pushLoop_panic compress v (2 * v.length + 2) 0
    { r with write_buffer := r.write_buffer ++ usize_to_slice_u8 v.length }
    (by omega)
    (by show v.length - 0 > r.limit; omega)
    (by
      show r.limit < (r.write_buffer ++ usize_to_slice_u8 v.length).length
      rw [List.length_append, usize_to_slice_u8_length]
      omega)
  simp only [Record.push, hc, if_false, hpanic]

/-- Evaluation of Record::flush on a non-empty buffer when neither archive
write triggers a rollover and the compressed block passes the size
assertion. -/
theorem flush_eval (compress : List Nat → List Nat) (r : Record)
    (hb : 0 < r.write_buffer.length)
    (hclen : (compress r.write_buffer).length < MAX_COMPRESSED_CHUNK_SIZE)
    (hro1 : ¬ (r.archive.write_buffer.length + MAX_COMPRESSED_CHUNK_SIZE > r.archive.limit))
    (hro2 : ¬ ((r.archive.write_buffer ++
          usize_to_slice_u8 (compress r.write_buffer).length).length +
        MAX_COMPRESSED_CHUNK_SIZE > r.archive.limit)) :
    Record.flush compress r =
      some { r with
        archive := { r.archive with write_buffer :=
          ((r.archive.write_buffer ++ usize_to_slice_u8 (compress r.write_buffer).length)
            ++ compress r.write_buffer) },
        write_buffer := [],
        flushLog := r.flushLog ++ [r.write_buffer.length] } := by
  have h4 : (usize_to_slice_u8 (compress r.write_buffer).length).length <
      MAX_COMPRESSED_CHUNK_SIZE := by
    rw [usize_to_slice_u8_length]
    decide
  simp only [Record.flush, Archive.write, if_pos hb, if_pos h4, if_pos hclen,
    if_neg hro1]
  simp only [if_neg hro2]

/-- Evaluation of Record::push when the item fits in a record but overflows
the current buffer: the buffer is flushed first (to the state `r1` computed
by an evaluation of Record::flush), then the prefix and item are appended. -/
theorem push_after_flush (compress : List Nat → List Nat) (r : Record) (v : List Nat)
    (hcond : v.length ≤ r.limit ∧ r.write_buffer.length + v.length > r.limit)
    (r1 : Record) (hf : Record.flush compress r = some r1)
    (h1 : v.length ≤ r1.limit) :
    Record.push compress r v =
      some ({ archive_location := r1.archive.write_location,
              uncompressed_offset := r1.write_buffer.length },
            { r1 with write_buffer := (r1.write_buffer ++ usize_to_slice_u8 v.length) ++ v }) := by
  have hc : (v.length ≤ r.limit ∧ r.write_buffer.length + v.length > r.limit) = True :=
    eq_true hcond
  have hstop := pushLoop_stop compress v (2 * v.length + 2) 0
    { r1 with write_buffer := r1.write_buffer ++ usize_to_slice_u8 v.length }
    (by omega) (by show ¬ v.length - 0 > r1.limit; omega)
  simp only [Record.push, hc, if_true, hf, hstop, List.drop_zero]

/-- Emitting via flatMap of singleton-or-empty equals filter-then-map. -/
theorem flatMap_emit_eq_filter_map {α β : Type} (l : List α) (q : α → Bool) (g : α → β) :
    (l.flatMap (fun x => if q x then [g x] else [])) = (l.filter q).map g := by
  induction l with
  | nil => rfl
  | cons x xs ih =>
    by_cases h : q x <;> simp [h, ih]

/-- Concatenation of all-zero vectors. -/
theorem zeros_append (m n : Nat) : zeros m ++ zeros n = zeros (m + n) := by
  simp [zeros, ← List.replicate_add]

/-- Unfolding writeAll on the empty list. -/
theorem writeAll_nil (a : Archive) : writeAll a [] = some a := rfl

/-- Unfolding writeAll when the first write succeeds. -/
theorem writeAll_cons_some (a : Archive) (v : List Nat) (vs : List (List Nat))
    (a1 : Archive) (h : a.write v = some a1) :
    writeAll a (v :: vs) = writeAll a1 vs := by
  simp only [writeAll, h]

/-- Splitting writeAll across an append. -/
theorem writeAll_append (a : Archive) (l1 l2 : List (List Nat)) :
    writeAll a (l1 ++ l2) = (writeAll a l1).bind (fun a1 => writeAll a1 l2) := by
  induction l1 generalizing a with
  | nil => simp [writeAll]
  | cons v t ih =>
    simp only [List.cons_append, writeAll]
    cases a.write v with
    | none => simp
    | some a1 => simp [ih]

/-- Structure of a successful Archive::write: the limit is unchanged, any new
segment on disk holds exactly the pre-write buffer, and the buffer stays
strictly below the limit whenever the limit admits the worst-case
reservation. -/
theorem write_some (a : Archive) (v : List Nat) (a' : Archive)
    (h : a.write v = some a') :
    a'.limit = a.limit ∧
    (∀ s ∈ a'.disk, s ∈ a.disk ∨ s.2.length = a.write_buffer.length) ∧
    (MAX_COMPRESSED_CHUNK_SIZE ≤ a.limit → a'.write_buffer.length < a.limit) := by
  unfold Archive.write at h
  by_cases hv : v.length < MAX_COMPRESSED_CHUNK_SIZE
  · rw [if_pos hv] at h
    dsimp only [] at h
    by_cases hroll : a.write_buffer.length + MAX_COMPRESSED_CHUNK_SIZE > a.limit
    · rw [if_pos hroll] at h
      unfold Archive.flush at h
      by_cases hbz : a.write_buffer.length > 0
      · rw [if_pos hbz] at h
        injection h with h1
        subst h1
        refine ⟨rfl, ?_, ?_⟩
        · intro s hs
          rcases List.mem_append.mp hs with hs1 | hs2
          · exact Or.inl hs1
          · right
            rw [List.mem_singleton.mp hs2]
        · intro hmax
          show (([] : List Nat) ++ v).length < a.limit
          rw [List.nil_append]
          omega
      · rw [if_neg hbz] at h
        injection h with h1
        subst h1
        refine ⟨rfl, fun s hs => Or.inl hs, ?_⟩
        intro hmax
        show (a.write_buffer ++ v).length < a.limit
        rw [List.length_append]
        omega
    · rw [if_neg hroll] at h
      injection h with h1
      subst h1
      refine ⟨rfl, fun s hs => Or.inl hs, ?_⟩
      intro hmax
      show (a.write_buffer ++ v).length < a.limit
      rw [List.length_append]
      omega
  · rw [if_neg hv] at h
    exact absurd h (by simp)

/-- Invariant carried along a sequence of archive writes: the limit never
changes, the buffer stays strictly below the limit, and every segment on
disk is strictly shorter than the limit. -/
theorem writeAll_inv :
    ∀ (vs : List (List Nat)) (a a' : Archive),
      writeAll a vs = some a' →
      MAX_COMPRESSED_CHUNK_SIZE ≤ a.limit →
      a.write_buffer.length < a.limit →
      (∀ s ∈ a.disk, s.2.length < a.limit) →
      a'.limit = a.limit ∧ a'.write_buffer.length < a.limit ∧
        ∀ s ∈ a'.disk, s.2.length < a.limit := by
  intro vs
  induction vs with
  | nil =>
    intro a a' h hm hb hd
    rw [writeAll_nil] at h
    injection h with h1
    subst h1
    exact ⟨rfl, hb, hd⟩
  | cons v t ih =>
    intro a a' h hm hb hd
    simp only [writeAll] at h
    cases hw : a.write v with
    | none => rw [hw] at h; exact absurd h (by simp)
    | some a1 =>
      rw [hw] at h
      dsimp only [] at h
      obtain ⟨hl1, hdisk1, hbuf1⟩ := write_some a v a1 hw
      have hd1 : ∀ s ∈ a1.disk, s.2.length < a1.limit := by
        intro s hs
        rw [hl1]
        rcases hdisk1 s hs with hs1 | hs2
        · exact hd s hs1
        · omega
      obtain ⟨ha, hbb, hdd⟩ := ih a1 a' h (by rw [hl1]; exact hm)
        (by rw [hl1]; exact hbuf1 hm) hd1
      refine ⟨ha.trans hl1, ?_, ?_⟩
      · rw [hl1] at hbb
        exact hbb
      · intro s hs
        have := hdd s hs
        rw [hl1] at this
        exact this

/-- Filling a fresh production archive with repeated 65919-byte blocks while
no rollover is triggered: the buffer accumulates all bytes. -/
theorem c7_fill (k : Nat) : ∀ b : Nat, b + 65919 * k ≤ 4152897 →
    writeAll { Archive.new ARCHIVE_SIZE with write_buffer := zeros b }
      (List.replicate k (zeros 65919)) =
    some { Archive.new ARCHIVE_SIZE with write_buffer := zeros (b + 65919 * k) } := by
  induction k with
  | zero =>
    intro b hb
    simp [writeAll]
  | succ n ih =>
    intro b hb
    rw [List.replicate_succ]
    have hw : ({ Archive.new ARCHIVE_SIZE with write_buffer := zeros b } : Archive).write
        (zeros 65919) =
        some { Archive.new ARCHIVE_SIZE with write_buffer := zeros (b + 65919) } := by
      unfold Archive.write
      rw [if_pos (by rw [zeros_length]; decide)]
      dsimp only []
      rw [if_neg (by
        show ¬ ((zeros b).length + MAX_COMPRESSED_CHUNK_SIZE > ARCHIVE_SIZE)
        rw [zeros_length]
        show ¬ (b + 65920 > 4194304)
        have h1 : 65919 * (n + 1) = 65919 * n + 65919 := by ring
        omega)]
      rw [zeros_append]
    rw [writeAll_cons_some _ _ _ _ hw, ih (b + 65919) (by
      have h1 : 65919 * (n + 1) = 65919 * n + 65919 := by ring
      omega)]
    have he : b + 65919 + 65919 * n = b + 65919 * (n + 1) := by ring
    rw [he]

/-- Structure of a successful Record::flush: the limit is unchanged, the
buffer is emptied, and the ghost log gains at most the flushed buffer
length. -/
theorem flush_some (compress : List Nat → List Nat) (r r' : Record)
    (h : Record.flush compress r = some r') :
    r'.limit = r.limit ∧ r'.write_buffer = [] ∧
    ∀ x ∈ r'.flushLog, x ∈ r.flushLog ∨ x = r.write_buffer.length := by
  unfold Record.flush at h
  by_cases hb : r.write_buffer.length > 0
  · rw [if_pos hb] at h
    dsimp only [] at h
    cases hw1 : r.archive.write (usize_to_slice_u8 (compress r.write_buffer).length) with
    | none => rw [hw1] at h; exact absurd h (by simp)
    | some a1 =>
      rw [hw1] at h
      dsimp only [] at h
      cases hw2 : a1.write (compress r.write_buffer) with
      | none => rw [hw2] at h; exact absurd h (by simp)
      | some a2 =>
        rw [hw2] at h
        dsimp only [] at h
        injection h with h1
        subst h1
        refine ⟨rfl, rfl, ?_⟩
        intro x hx
        simpa using hx
  · rw [if_neg hb] at h
    injection h with h1
    subst h1
    have hnil : r.write_buffer = [] := by
      have : r.write_buffer.length = 0 := by omega
      exact List.length_eq_zero.mp this
    exact ⟨rfl, hnil, fun x hx => Or.inl hx⟩

/-- Structure of a successful run of the push loop: the limit is unchanged,
every new ghost-log entry equals the limit, and the final buffer is bounded
by the limit or by the initial buffer plus the remaining item bytes; when the
loop actually ran (remaining bytes exceed the limit) the final buffer is
bounded by the limit alone. -/
theorem pushLoop_some (compress : List Nat → List Nat) (v : List Nat) :
    ∀ (fuel vpos : Nat) (r r' : Record),
      Record.pushLoop compress v fuel vpos r = some r' →
      r'.limit = r.limit ∧
      (∀ x ∈ r'.flushLog, x ∈ r.flushLog ∨ x = r.limit) ∧
      (r'.write_buffer.length ≤ r.limit ∨
        r'.write_buffer.length ≤ r.write_buffer.length + (v.length - vpos)) ∧
      (v.length - vpos > r.limit → r'.write_buffer.length ≤ r.limit) := by
  intro fuel
  induction fuel with
  | zero =>
    intro vpos r r' h
    exact absurd h (by simp [Record.pushLoop])
  | succ n ih =>
    intro vpos r r' h
    rw [Record.pushLoop] at h
    by_cases hg : v.length - vpos > r.limit
    · rw [if_pos hg] at h
      by_cases hp : r.limit < r.write_buffer.length
      · rw [if_pos hp] at h
        exact absurd h (by simp)
      · rw [if_neg hp] at h
        dsimp only [] at h
        cases hf : Record.flush compress
            { r with write_buffer := r.write_buffer ++
                (v.drop vpos).take (r.limit - r.write_buffer.length) } with
        | none => rw [hf] at h; exact absurd h (by simp)
        | some r2 =>
          rw [hf] at h
          dsimp only [] at h
          obtain ⟨hl2, hb2, hlog2⟩ := flush_some compress _ r2 hf
          obtain ⟨il, ilog, ibuf, ig⟩ :=
            ih (vpos + (r.limit - r.write_buffer.length)) r2 r' h
          have hextlen : (r.write_buffer ++
              (v.drop vpos).take (r.limit - r.write_buffer.length)).length = r.limit := by
            rw [List.length_append, List.length_take, List.length_drop]
            omega
          have hl2' : r2.limit = r.limit := hl2
          have hb2' : r2.write_buffer.length = 0 := by rw [hb2]; rfl
          refine ⟨il.trans hl2', ?_, ?_, ?_⟩
          · intro x hx
            rcases ilog x hx with hx2 | hxl
            · rcases hlog2 x hx2 with hx3 | hx4
              · exact Or.inl hx3
              · right
                rw [hx4]
                exact hextlen
            · right
              rw [hxl]
              exact hl2'
          · rcases ibuf with hbl | hbr
            · exact Or.inl (by omega)
            · right
              omega
          · intro _
            by_cases hg2 : v.length - (vpos + (r.limit - r.write_buffer.length)) > r2.limit
            · have := ig hg2
              omega
            · rcases ibuf with hbl | hbr
              · omega
              · omega
    · rw [if_neg hg] at h
      injection h with h1
      subst h1
      refine ⟨rfl, fun x hx => Or.inl hx, ?_, fun hgv => absurd hgv hg⟩
      right
      rw [List.length_append, List.length_drop]

/-- Structure of a successful Record::push: the limit is unchanged, new
ghost-log entries are bounded by the limit or equal the pre-push buffer
length, and a buffer within limit+4 stays within limit+4 (the four bytes
being the length prefix of an item that fills the record exactly). -/
theorem push_some (compress : List Nat → List Nat) (r : Record) (v : List Nat)
    (loc : RecordLocation) (r' : Record)
    (h : Record.push compress r v = some (loc, r')) :
    r'.limit = r.limit ∧
    (∀ x ∈ r'.flushLog, x ∈ r.flushLog ∨ x = r.limit ∨ x = r.write_buffer.length) ∧
    (r.write_buffer.length ≤ r.limit + 4 → r'.write_buffer.length ≤ r.limit + 4) := by
  unfold Record.push at h
  by_cases hc : v.length ≤ r.limit ∧ r.write_buffer.length + v.length > r.limit
  · rw [if_pos hc] at h
    dsimp only [] at h
    cases hf : Record.flush compress r with
    | none => rw [hf] at h; exact absurd h (by simp)
    | some r1 =>
      rw [hf] at h
      dsimp only [] at h
      obtain ⟨hl1, hb1, hlog1⟩ := flush_some compress r r1 hf
      cases hpl : Record.pushLoop compress v (2 * v.length + 2) 0
          { r1 with write_buffer := r1.write_buffer ++ usize_to_slice_u8 v.length } with
      | none => rw [hpl] at h; exact absurd h (by simp)
      | some r3 =>
        rw [hpl] at h
        dsimp only [] at h
        injection h with h1
        injection h1 with h2 h3
        subst h3
        obtain ⟨il, ilog, ibuf, ig⟩ := pushLoop_some compress v _ 0 _ r3 hpl
        have hrb : (r1.write_buffer ++ usize_to_slice_u8 v.length).length = 4 := by
          rw [hb1, List.nil_append, usize_to_slice_u8_length]
        have il' : r3.limit = r1.limit := il
        refine ⟨il'.trans hl1, ?_, ?_⟩
        · intro x hx
          rcases ilog x hx with hx2 | hxl
          · rcases hlog1 x hx2 with hx3 | hx4
            · exact Or.inl hx3
            · exact Or.inr (Or.inr hx4)
          · exact Or.inr (Or.inl (hxl.trans hl1))
        · intro _
          have hv : v.length ≤ r.limit := hc.1
          have hlim : r1.limit = r.limit := hl1
          rcases ibuf with hbl | hbr
          · omega
          · have : ({ r1 with write_buffer :=
                r1.write_buffer ++ usize_to_slice_u8 v.length } : Record).write_buffer.length
                = 4 := hrb
            omega
  · rw [if_neg hc] at h
    dsimp only [] at h
    cases hpl : Record.pushLoop compress v (2 * v.length + 2) 0
        { r with write_buffer := r.write_buffer ++ usize_to_slice_u8 v.length } with
    | none => rw [hpl] at h; exact absurd h (by simp)
    | some r3 =>
      rw [hpl] at h
      dsimp only [] at h
      injection h with h1
      injection h1 with h2 h3
      subst h3
      obtain ⟨il, ilog, ibuf, ig⟩ := pushLoop_some compress v _ 0 _ r3 hpl
      have hrb : (r.write_buffer ++ usize_to_slice_u8 v.length).length =
          r.write_buffer.length + 4 := by
        rw [List.length_append, usize_to_slice_u8_length]
      have il' : r3.limit = r.limit := il
      refine ⟨il', ?_, ?_⟩
      · intro x hx
        rcases ilog x hx with hx2 | hxl
        · exact Or.inl hx2
        · exact Or.inr (Or.inl hxl)
      · intro hb4
        by_cases hv : v.length ≤ r.limit
        · have hnb : r.write_buffer.length + v.length ≤ r.limit := by
            rcases Nat.lt_or_ge r.limit (r.write_buffer.length + v.length) with hlt | hge
            · exact absurd ⟨hv, hlt⟩ hc
            · exact hge
          rcases ibuf with hbl | hbr
          · omega
          · have : ({ r with write_buffer :=
                r.write_buffer ++ usize_to_slice_u8 v.length } : Record).write_buffer.length
                = r.write_buffer.length + 4 := hrb
            omega
        · have := ig (by show v.length - 0 > r.limit; omega)
          omega

/-- Invariant carried along a sequence of pushes: the limit never changes,
the buffer stays within limit+4 and every ghost-log entry is within
limit+4. -/
theorem pushAll_inv (compress : List Nat → List Nat) :
    ∀ (vs : List (List Nat)) (r r' : Record),
      pushAll compress r vs = some r' →
      r.write_buffer.length ≤ r.limit + 4 →
      (∀ x ∈ r.flushLog, x ≤ r.limit + 4) →
      r'.limit = r.limit ∧ r'.write_buffer.length ≤ r.limit + 4 ∧
        ∀ x ∈ r'.flushLog, x ≤ r.limit + 4 := by
  intro vs
  induction vs with
  | nil =>
    intro r r' h hb hl
    rw [pushAll_nil] at h
    injection h with h1
    subst h1
    exact ⟨rfl, hb, hl⟩
  | cons v t ih =>
    intro r r' h hb hl
    simp only [pushAll] at h
    cases hp : Record.push compress r v with
    | none => rw [hp] at h; exact absurd h (by simp)
    | some pr =>
      rw [hp] at h
      obtain ⟨loc, r1⟩ := pr
      dsimp only [] at h
      obtain ⟨hl1, hlog1, hbuf1⟩ := push_some compress r v loc r1 hp
      have hb1 : r1.write_buffer.length ≤ r1.limit + 4 := by
        rw [hl1]
        exact hbuf1 hb
      have hlg1 : ∀ x ∈ r1.flushLog, x ≤ r1.limit + 4 := by
        intro x hx
        rw [hl1]
        rcases hlog1 x hx with h1 | h2 | h3
        · exact hl x h1
        · omega
        · omega
      obtain ⟨ha, hbb, hcc⟩ := ih r1 r' h hb1 hlg1
      refine ⟨ha.trans hl1, ?_, ?_⟩
      · rw [hl1] at hbb
        exact hbb
      · intro x hx
        have hxx := hcc x hx
        rw [hl1] at hxx
        exact hxx

/-- FileIndex lookup on a cons cell. -/
theorem idxGet_cons (p : Entry × Nat) (m : List (Entry × Nat)) (e : Entry) :
    idxGet (p :: m) e = if p.1 = e then some p.2 else idxGet m e := by
  unfold idxGet
  by_cases h : p.1 = e
  · rw [List.find?_cons_of_pos _ (by simp [h]), if_pos h]
    rfl
  · rw [List.find?_cons_of_neg _ (by simp [h]), if_neg h]

/-- A FileIndex key test failing means no pair carries the key. -/
theorem idxContains_false_iff (m : List (Entry × Nat)) (k : Entry) :
    idxContains m k = false ↔ ∀ p ∈ m, p.1 ≠ k := by
  unfold idxContains
  rw [Option.not_isSome, Option.isNone_iff_eq_none, List.find?_eq_none]
  constructor
  · intro h p hp
    have := h p hp
    simpa using this
  · intro h p hp
    simpa using h p hp

/-- A FileIndex key test failing means lookup returns nothing. -/
theorem idxGet_none_of_contains_false {m : List (Entry × Nat)} {k : Entry}
    (h : idxContains m k = false) : idxGet m k = none := by
  unfold idxContains at h
  unfold idxGet
  rw [Option.not_isSome, Option.isNone_iff_eq_none] at h
  rw [h]
  rfl

/-- Inserting a fresh key into the FileIndex is a plain cons. -/
theorem idxInsert_fresh (m : List (Entry × Nat)) (k : Entry) (v : Nat)
    (h : idxContains m k = false) : idxInsert m k v = (k, v) :: m := by
  unfold idxInsert
  rw [List.filter_eq_self.mpr]
  intro p hp
  have := (idxContains_false_iff m k).mp h p hp
  simpa using this

/-- FileIndex lookup of a member pair under duplicate-free keys. -/
theorem idxGet_mem_nodup :
    ∀ {m : List (Entry × Nat)}, (m.map Prod.fst).Nodup →
      ∀ {p : Entry × Nat}, p ∈ m → idxGet m p.1 = some p.2 := by
  intro m
  induction m with
  | nil => intro _ p hp; cases hp
  | cons q t ih =>
    intro hnd p hp
    have hnd' : q.1 ∉ t.map Prod.fst ∧ (t.map Prod.fst).Nodup := by
      rw [List.map_cons, List.nodup_cons] at hnd
      exact hnd
    rw [idxGet_cons]
    rcases List.mem_cons.mp hp with rfl | hpt
    · rw [if_pos rfl]
    · by_cases hq : q.1 = p.1
      · exfalso
        exact hnd'.1 (hq ▸ List.mem_map.mpr ⟨p, hpt, rfl⟩)
      · rw [if_neg hq]
        exact ih hnd'.2 hpt

/-- A successful FileIndex lookup exhibits the member pair. -/
theorem idxGet_some_mem {m : List (Entry × Nat)} {e : Entry} {v : Nat}
    (h : idxGet m e = some v) : (e, v) ∈ m := by
  unfold idxGet at h
  cases hf : List.find? (fun p => p.1 == e) m with
  | none => rw [hf] at h; simp at h
  | some a =>
    rw [hf] at h
    simp only [Option.map_some', Option.some.injEq] at h
    have hm := List.mem_of_find?_eq_some hf
    have hp := List.find?_some hf
    have ha1 : a.1 = e := by simpa using hp
    have ha : a = (e, v) := by
      cases a
      simp_all
    rw [← ha]
    exact hm

/-- HashIndex lookup on a cons cell. -/
theorem hidxGet_cons (p : Nat × List Entry) (m : List (Nat × List Entry)) (h : Nat) :
    hidxGet (p :: m) h = if p.1 = h then some p.2 else hidxGet m h := by
  unfold hidxGet
  by_cases hh : p.1 = h
  · rw [List.find?_cons_of_pos _ (by simp [hh]), if_pos hh]
    rfl
  · rw [List.find?_cons_of_neg _ (by simp [hh]), if_neg hh]

/-- HashIndex key test on a cons cell. -/
theorem hidxContains_cons (p : Nat × List Entry) (m : List (Nat × List Entry)) (h : Nat) :
    hidxContains (p :: m) h = if p.1 = h then true else hidxContains m h := by
  unfold hidxContains
  by_cases hh : p.1 = h
  · rw [List.find?_cons_of_pos _ (by simp [hh]), if_pos hh]
    rfl
  · rw [List.find?_cons_of_neg _ (by simp [hh]), if_neg hh]

/-- The HashIndex key test is the lookup's success. -/
theorem hidxContains_eq_isSome (m : List (Nat × List Entry)) (h : Nat) :
    hidxContains m h = (hidxGet m h).isSome := by
  unfold hidxContains hidxGet
  cases List.find? (fun p => p.1 == h) m <;> rfl

/-- A successful HashIndex lookup exhibits the member pair. -/
theorem hidxGet_some_mem {m : List (Nat × List Entry)} {h : Nat} {l : List Entry}
    (hg : hidxGet m h = some l) : (h, l) ∈ m := by
  unfold hidxGet at hg
  cases hf : List.find? (fun p => p.1 == h) m with
  | none => rw [hf] at hg; simp at hg
  | some a =>
    rw [hf] at hg
    simp only [Option.map_some', Option.some.injEq] at hg
    have hm := List.mem_of_find?_eq_some hf
    have hp := List.find?_some hf
    have ha1 : a.1 = h := by simpa using hp
    have ha : a = (h, l) := by
      cases a
      simp_all
    rw [← ha]
    exact hm

/-- Removing one fingerprint leaves lookups of other fingerprints alone. -/
theorem hidxGet_remove_ne (m : List (Nat × List Entry)) (h h' : Nat) (hne : h ≠ h') :
    hidxGet (hidxRemove m h') h = hidxGet m h := by
  induction m with
  | nil => rfl
  | cons q t ih =>
    unfold hidxRemove
    rw [List.filter_cons]
    by_cases hq : q.1 = h'
    · rw [if_neg (by simp [hq])]
      rw [show (List.filter (fun p => !(p.1 == h')) t) = hidxRemove t h' from rfl, ih]
      rw [hidxGet_cons, if_neg (by omega)]
    · rw [if_pos (by simp [hq])]
      rw [hidxGet_cons, hidxGet_cons]
      rw [show (List.filter (fun p => !(p.1 == h')) t) = hidxRemove t h' from rfl, ih]

/-- Keys of a HashIndex removal form a sublist of the original keys. -/
theorem hidxRemove_keys_sublist (m : List (Nat × List Entry)) (h : Nat) :
    ((hidxRemove m h).map Prod.fst).Sublist (m.map Prod.fst) :=
  (List.filter_sublist m).map Prod.fst

/-- The removed fingerprint is not among the remaining keys. -/
theorem hidxRemove_not_mem_keys (m : List (Nat × List Entry)) (h : Nat) :
    h ∉ (hidxRemove m h).map Prod.fst := by
  intro hmem
  obtain ⟨p, hp, hph⟩ := List.mem_map.mp hmem
  have := List.of_mem_filter hp
  rw [hph] at this
  simp at this

/-- Pairs surviving a HashIndex removal are original pairs with other keys. -/
theorem hidxRemove_mem {m : List (Nat × List Entry)} {h : Nat} {q : Nat × List Entry}
    (hq : q ∈ hidxRemove m h) : q ∈ m ∧ q.1 ≠ h := by
  refine ⟨List.mem_of_mem_filter hq, ?_⟩
  have := List.of_mem_filter hq
  simpa using this

/-- The strengthened invariant holds for a fresh FileStore. -/
theorem InvFull_new (cfg : Config) : InvFull (FileStore.new cfg) := by
  refine ⟨by simp [FileStore.new], by simp [FileStore.new], ?_, ?_⟩
  · intro q hq
    simp [FileStore.new] at hq
  · intro p hp
    simp [FileStore.new] at hp

/-- One read pair with a fresh Entry preserves the strengthened invariant. -/
theorem readPair_invFull (fs : FileStore) (i0 : Entry) (i1 : Nat)
    (hinv : InvFull fs) (hfresh : idxContains fs.index i0 = false) :
    InvFull (FileStore.readPair fs (i0, i1)) := by
  obtain ⟨hnd1, hnd2, hq, hcont⟩ := hinv
  have hF0 : idxGet fs.index i0 = none := idxGet_none_of_contains_false hfresh
  have hi0keys : i0 ∉ fs.index.map Prod.fst := by
    intro hmem
    obtain ⟨p, hp, hpe⟩ := List.mem_map.mp hmem
    exact (idxContains_false_iff fs.index i0).mp hfresh p hp hpe
  cases hg : hidxGet fs.hindex i1 with
  | none =>
    have hrp : FileStore.readPair fs (i0, i1) =
        { fs with index := (i0, i1) :: fs.index,
                  hindex := (i1, [i0]) :: hidxRemove fs.hindex i1 } := by
      unfold FileStore.readPair hidxInsert
      dsimp only []
      rw [hg, idxInsert_fresh _ _ _ hfresh]
    rw [hrp]
    refine ⟨?_, ?_, ?_, ?_⟩
    · simp only [List.map_cons, List.nodup_cons]
      exact ⟨hi0keys, hnd1⟩
    · simp only [List.map_cons, List.nodup_cons]
      exact ⟨hidxRemove_not_mem_keys fs.hindex i1,
        List.Nodup.sublist (hidxRemove_keys_sublist fs.hindex i1) hnd2⟩
    · intro q hqmem
      rcases List.mem_cons.mp hqmem with rfl | hqt
      · refine ⟨by simp, by simp, ?_⟩
        intro e
        show e ∈ [i0] ↔ idxGet ((i0, i1) :: fs.index) e = some i1
        rw [idxGet_cons]
        constructor
        · intro he
          have he' : e = i0 := by simpa using he
          subst he'
          rw [if_pos rfl]
        · intro hget
          by_cases hei : i0 = e
          · simp [hei]
          · exfalso
            rw [if_neg hei] at hget
            have hmem := idxGet_some_mem hget
            have hc := hcont (e, i1) hmem
            rw [hidxContains_eq_isSome, hg] at hc
            simp at hc
      · obtain ⟨hqm, hqne⟩ := hidxRemove_mem hqt
        obtain ⟨hne, hnd, hmemiff⟩ := hq q hqm
        refine ⟨hne, hnd, ?_⟩
        intro e
        dsimp only []
        rw [idxGet_cons]
        by_cases hei : i0 = e
        · subst hei
          constructor
          · intro hmem0
            exfalso
            have hx := (hmemiff i0).mp hmem0
            rw [hF0] at hx
            simp at hx
          · intro hsome
            exfalso
            rw [if_pos rfl] at hsome
            have hx : i1 = q.1 := by simpa using hsome
            exact hqne hx.symm
        · rw [if_neg hei]
          exact hmemiff e
    · intro p hpmem
      dsimp only [] at hpmem ⊢
      rcases List.mem_cons.mp hpmem with rfl | hpt
      · rw [hidxContains_cons]
        rw [if_pos rfl]
      · rw [hidxContains_cons]
        by_cases hh : i1 = p.2
        · rw [if_pos hh]
        · rw [if_neg hh]
          rw [hidxContains_eq_isSome, hidxGet_remove_ne _ _ _ (fun he => hh he.symm),
            ← hidxContains_eq_isSome]
          exact hcont p hpt
  | some vec =>
    have hvecmem := hidxGet_some_mem hg
    obtain ⟨hvne, hvnd, hviff⟩ := hq (i1, vec) hvecmem
    have hi0vec : i0 ∉ vec := by
      intro hmem
      have hx := (hviff i0).mp hmem
      rw [hF0] at hx
      simp at hx
    have hrp : FileStore.readPair fs (i0, i1) =
        { fs with index := (i0, i1) :: fs.index,
                  hindex := (i1, vec ++ [i0]) :: hidxRemove fs.hindex i1 } := by
      unfold FileStore.readPair hidxInsert
      dsimp only []
      rw [hg, idxInsert_fresh _ _ _ hfresh]
    rw [hrp]
    refine ⟨?_, ?_, ?_, ?_⟩
    · simp only [List.map_cons, List.nodup_cons]
      exact ⟨hi0keys, hnd1⟩
    · simp only [List.map_cons, List.nodup_cons]
      exact ⟨hidxRemove_not_mem_keys fs.hindex i1,
        List.Nodup.sublist (hidxRemove_keys_sublist fs.hindex i1) hnd2⟩
    · intro q hqmem
      rcases List.mem_cons.mp hqmem with rfl | hqt
      · refine ⟨by simp, ?_, ?_⟩
        · rw [List.nodup_append]
          refine ⟨hvnd, by simp, ?_⟩
          intro x hx
          simp only [List.mem_singleton]
          intro hxi
          subst hxi
          exact hi0vec hx
        · intro e
          show e ∈ vec ++ [i0] ↔ idxGet ((i0, i1) :: fs.index) e = some i1
          rw [idxGet_cons]
          constructor
          · intro he
            rcases List.mem_append.mp he with hev | he0
            · have hge := (hviff e).mp hev
              by_cases hei : i0 = e
              · exfalso
                subst hei
                rw [hF0] at hge
                simp at hge
              · rw [if_neg hei]
                exact hge
            · have he' : e = i0 := by simpa using he0
              subst he'
              rw [if_pos rfl]
          · intro hget
            by_cases hei : i0 = e
            · subst hei
              exact List.mem_append.mpr (Or.inr (by simp))
            · rw [if_neg hei] at hget
              exact List.mem_append.mpr (Or.inl ((hviff e).mpr hget))
      · obtain ⟨hqm, hqne⟩ := hidxRemove_mem hqt
        obtain ⟨hne, hnd, hmemiff⟩ := hq q hqm
        refine ⟨hne, hnd, ?_⟩
        intro e
        dsimp only []
        rw [idxGet_cons]
        by_cases hei : i0 = e
        · subst hei
          constructor
          · intro hmem0
            exfalso
            have hx := (hmemiff i0).mp hmem0
            rw [hF0] at hx
            simp at hx
          · intro hsome
            exfalso
            rw [if_pos rfl] at hsome
            have hx : i1 = q.1 := by simpa using hsome
            exact hqne hx.symm
        · rw [if_neg hei]
          exact hmemiff e
    · intro p hpmem
      dsimp only [] at hpmem ⊢
      rcases List.mem_cons.mp hpmem with rfl | hpt
      · rw [hidxContains_cons]
        rw [if_pos rfl]
      · rw [hidxContains_cons]
        by_cases hh : i1 = p.2
        · rw [if_pos hh]
        · rw [if_neg hh]
          rw [hidxContains_eq_isSome, hidxGet_remove_ne _ _ _ (fun he => hh he.symm),
            ← hidxContains_eq_isSome]
          exact hcont p hpt

/-- Reading a stream of pairwise-distinct fresh entries preserves the
strengthened invariant. -/
theorem read_invFull :
    ∀ (ps : List (Entry × Nat)) (fs : FileStore),
      InvFull fs → (∀ p ∈ ps, idxContains fs.index p.1 = false) →
      (ps.map Prod.fst).Nodup →
      InvFull (FileStore.read fs ps) := by
  intro ps
  induction ps with
  | nil =>
    intro fs hi _ _
    exact hi
  | cons p t ih =>
    intro fs hi hfresh hnd
    obtain ⟨p0, p1⟩ := p
    simp only [FileStore.read, List.foldl_cons]
    have hfresh0 : idxContains fs.index p0 = false := hfresh (p0, p1) (by simp)
    have hidx : (FileStore.readPair fs (p0, p1)).index = (p0, p1) :: fs.index := by
      unfold FileStore.readPair
      dsimp only []
      rw [idxInsert_fresh _ _ _ hfresh0]
    apply ih
    · exact readPair_invFull fs p0 p1 hi hfresh0
    · intro q hq
      have hq1 : idxContains fs.index q.1 = false := hfresh q (by simp [hq])
      have hqp : q.1 ≠ p0 := by
        rw [List.map_cons, List.nodup_cons] at hnd
        intro he
        exact hnd.1 (he ▸ List.mem_map.mpr ⟨q, hq, rfl⟩)
      rw [idxContains_false_iff, hidx]
      intro r hr
      rcases List.mem_cons.mp hr with rfl | hrt
      · exact fun he => hqp he.symm
      · exact (idxContains_false_iff _ _).mp hq1 r hrt
    · rw [List.map_cons, List.nodup_cons] at hnd
      exact hnd.2

/-- The strengthened invariant implies the claimed dual-index invariant. -/
theorem invFull_storeInv (fs : FileStore) (h : InvFull fs) : storeInv fs := by
  obtain ⟨hnd1, hnd2, hq, hcont⟩ := h
  constructor
  · intro p hp
    have hc := hcont p hp
    rw [hidxContains_eq_isSome] at hc
    cases hgl : hidxGet fs.hindex p.2 with
    | none =>
      rw [hgl] at hc
      simp at hc
    | some l =>
      have hmem := hidxGet_some_mem hgl
      obtain ⟨_, _, hiff⟩ := hq (p.2, l) hmem
      refine ⟨⟨l, rfl, ?_⟩, ?_⟩
      · exact (hiff p.1).mpr (idxGet_mem_nodup hnd1 hp)
      · intro q' hq' hpq
        obtain ⟨_, _, hiff'⟩ := hq q' hq'
        have h1 := (hiff' p.1).mp hpq
        have h2 := idxGet_mem_nodup hnd1 hp
        rw [h2] at h1
        exact (Option.some.inj h1.symm)
  · intro h0 hex
    obtain ⟨p, hp, hph⟩ := hex
    subst hph
    have hc := hcont p hp
    rw [hidxContains_eq_isSome] at hc
    cases hgl : hidxGet fs.hindex p.2 with
    | none =>
      rw [hgl] at hc
      simp at hc
    | some l =>
      have hmem := hidxGet_some_mem hgl
      obtain ⟨_, hlnd, hiff⟩ := hq (p.2, l) hmem
      exact ⟨l, rfl, hlnd, fun e => hiff e⟩

/-! Claim theorems. -/

/-- Claim C3: for every archive state with the production-sized limit (any
limit at least MAX_COMPRESSED_CHUNK_SIZE) and every block shorter than
MAX_COMPRESSED_CHUNK_SIZE, `write_location` returns exactly the position at
which the next `write` places the block: `(serial + 1, 0)` when the pending
write triggers a rollover, `(serial, buffer length)` otherwise. -/
theorem claim_C3 (a : Archive) (v : List Nat)
    (hlim : MAX_COMPRESSED_CHUNK_SIZE ≤ a.limit)
    (hv : v.length < MAX_COMPRESSED_CHUNK_SIZE) :
    ∃ a', a.write v = some a' ∧
      a'.write_serial_number = a.write_location.archive_set ∧
      a'.write_buffer.length = a.write_location.set_offset + v.length ∧
      a'.write_buffer.drop a.write_location.set_offset = v ∧
      (a.write_buffer.length + MAX_COMPRESSED_CHUNK_SIZE > a.limit →
        a.write_location =
          { archive_set := a.write_serial_number + 1, set_offset := 0 }) ∧
      (¬ a.write_buffer.length + MAX_COMPRESSED_CHUNK_SIZE > a.limit →
        a.write_location =
          { archive_set := a.write_serial_number,
            set_offset := a.write_buffer.length }) := by
  by_cases hroll : a.write_buffer.length + MAX_COMPRESSED_CHUNK_SIZE > a.limit
  · have hb : a.write_buffer.length > 0 := by omega
    refine ⟨{ (a.flush) with write_buffer := a.flush.write_buffer ++ v }, ?_, ?_, ?_, ?_, ?_, ?_⟩
    · simp [Archive.write, hv, hroll]
    · simp [Archive.flush, hb, Archive.write_location, hroll]
    · simp [Archive.flush, hb, Archive.write_location, hroll]
    · simp [Archive.flush, hb, Archive.write_location, hroll]
    · intro _
      simp [Archive.write_location, hroll]
    · intro h
      exact absurd hroll h
  · refine ⟨{ a with write_buffer := a.write_buffer ++ v }, ?_, ?_, ?_, ?_, ?_, ?_⟩
    · simp [Archive.write, hv, hroll]
    · simp [Archive.write_location, hroll]
    · simp [Archive.write_location, hroll]
    · simp [Archive.write_location, hroll]
    · intro h
      exact absurd h hroll
    · intro _
      simp [Archive.write_location, hroll]

/-- Claim C3 witness: a concrete application of `claim_C3` on a fresh
production archive and the block `[1, 2, 3]`. -/
theorem claim_C3_witness :
    MAX_COMPRESSED_CHUNK_SIZE ≤ (Archive.new ARCHIVE_SIZE).limit ∧
    ([1, 2, 3] : List Nat).length < MAX_COMPRESSED_CHUNK_SIZE ∧
    ∃ a', (Archive.new ARCHIVE_SIZE).write [1, 2, 3] = some a' ∧
      a'.write_serial_number = (Archive.new ARCHIVE_SIZE).write_location.archive_set ∧
      a'.write_buffer.length =
        (Archive.new ARCHIVE_SIZE).write_location.set_offset + ([1, 2, 3] : List Nat).length ∧
      a'.write_buffer.drop (Archive.new ARCHIVE_SIZE).write_location.set_offset = [1, 2, 3] ∧
      ((Archive.new ARCHIVE_SIZE).write_buffer.length + MAX_COMPRESSED_CHUNK_SIZE >
          (Archive.new ARCHIVE_SIZE).limit →
        (Archive.new ARCHIVE_SIZE).write_location =
          { archive_set := (Archive.new ARCHIVE_SIZE).write_serial_number + 1,
            set_offset := 0 }) ∧
      (¬ (Archive.new ARCHIVE_SIZE).write_buffer.length + MAX_COMPRESSED_CHUNK_SIZE >
          (Archive.new ARCHIVE_SIZE).limit →
        (Archive.new ARCHIVE_SIZE).write_location =
          { archive_set := (Archive.new ARCHIVE_SIZE).write_serial_number,
            set_offset := (Archive.new ARCHIVE_SIZE).write_buffer.length }) :=
  ⟨by decide, by decide, claim_C3 (Archive.new ARCHIVE_SIZE) [1, 2, 3] (by decide) (by decide)⟩

/-- Claim C8: prune refuses to act on an empty PresentSet, and with a
non-empty PresentSet it keeps exactly the FileIndex entries in the
PresentSet, never touching HashIndex. -/
theorem claim_C8 (fs : FileStore) :
    (fs.present = [] → FileStore.prune fs = fs) ∧
    (fs.present ≠ [] →
      (FileStore.prune fs).hindex = fs.hindex ∧
      (FileStore.prune fs).index =
        fs.index.filter (fun p => presentContains fs.present p.1) ∧
      ∀ p ∈ fs.index,
        (p ∈ (FileStore.prune fs).index ↔ presentContains fs.present p.1 = true)) := by
  constructor
  · intro h
    simp [FileStore.prune, h]
  · intro h
    have hlen : fs.present.length > 0 := List.length_pos.mpr h
    refine ⟨?_, ?_, ?_⟩
    · simp [FileStore.prune, hlen]
    · simp [FileStore.prune, hlen]
    · intro p hp
      simp [FileStore.prune, hlen, List.mem_filter, hp]

/-- Claim C8 witness: a concrete application of `claim_C8` on a store with a
non-empty PresentSet. -/
theorem claim_C8_witness :
    fsC8.present ≠ [] ∧
    (FileStore.prune fsC8).hindex = fsC8.hindex ∧
    (FileStore.prune fsC8).index =
      fsC8.index.filter (fun p => presentContains fsC8.present p.1) :=
  ⟨by decide, ((claim_C8 fsC8).2 (by decide)).1, ((claim_C8 fsC8).2 (by decide)).2.1⟩

/-- Claim C9 counterexample: in present mode, a zero-length entry of the
second archive whose fingerprint is present in the primary HashIndex is not
emitted, contradicting the claim that present mode emits every entry with a
present fingerprint with no additional filtering. -/
theorem claim_C9_counterexample :
    fsC9.config.present = true ∧
    (eC9a, 5) ∈ secondC9.index ∧
    hidxContains fsC9.hindex 5 = true ∧
    FileStore.find_dups_second_archive fsC9 secondC9 = [] := by
  refine ⟨rfl, ?_, by decide, by decide⟩
  simp [secondC9]

/-- Claim C9 (amended): find_dups_second_archive emits, in missing mode,
exactly the entries of the second FileIndex whose fingerprint is absent from
the primary HashIndex; in present mode, exactly those whose fingerprint is
present and whose length is positive (the source filters out zero-length
entries in present mode). -/
theorem claim_C9 (fs second : FileStore) :
    (fs.config.missing = true → fs.config.present = false →
      FileStore.find_dups_second_archive fs second =
        (second.index.filter (fun p => !hidxContains fs.hindex p.2)).map Prod.fst) ∧
    (fs.config.present = true → fs.config.missing = false →
      FileStore.find_dups_second_archive fs second =
        (second.index.filter
          (fun p => hidxContains fs.hindex p.2 && decide (0 < p.1.len))).map Prod.fst) := by
  constructor
  · intro hm hp
    unfold FileStore.find_dups_second_archive
    rw [← flatMap_emit_eq_filter_map second.index (fun p => !hidxContains fs.hindex p.2)
      Prod.fst]
    congr 1
    funext p
    by_cases h : hidxContains fs.hindex p.2 <;> simp [h, hm, hp]
  · intro hp hm
    unfold FileStore.find_dups_second_archive
    rw [← flatMap_emit_eq_filter_map second.index
      (fun p => hidxContains fs.hindex p.2 && decide (0 < p.1.len)) Prod.fst]
    congr 1
    funext p
    by_cases h : hidxContains fs.hindex p.2 <;>
      by_cases hl : 0 < p.1.len <;> simp [h, hl, hm, hp]

/-- Claim C9 witness: a concrete application of `claim_C9` in present mode;
the positive-length entry with a present fingerprint is emitted. -/
theorem claim_C9_witness :
    fsC9.config.present = true ∧ fsC9.config.missing = false ∧
    FileStore.find_dups_second_archive fsC9 secondC9 =
      (secondC9.index.filter
        (fun p => hidxContains fsC9.hindex p.2 && decide (0 < p.1.len))).map Prod.fst :=
  ⟨rfl, rfl, (claim_C9 fsC9 secondC9).2 rfl rfl⟩

/-- Claim C7 counterexample: 64 writes of 65919 bytes each leave 63 blocks
(4 152 897 bytes) in the buffer before the rollover flush, so the persisted
segment exceeds ARCHIVE_SIZE − MAX_COMPRESSED_CHUNK_SIZE = 4 128 384 bytes:
the reservation bounds the buffer before a write is appended, not the final
segment size. -/
theorem claim_C7_counterexample :
    (writeAll (Archive.new ARCHIVE_SIZE) (List.replicate 64 (zeros 65919))).map
        (fun a => a.disk.map (fun s => s.2.length)) = some [4152897] ∧
    ¬ (4152897 ≤ ARCHIVE_SIZE - MAX_COMPRESSED_CHUNK_SIZE) := by
  refine ⟨?_, by decide⟩
  have h63 := c7_fill 63 0 (by decide)
  have hstart : (Archive.new ARCHIVE_SIZE) =
      { Archive.new ARCHIVE_SIZE with write_buffer := zeros 0 } := by
    simp [Archive.new, zeros]
  have hw : ({ Archive.new ARCHIVE_SIZE with write_buffer := zeros (0 + 65919 * 63) } :
      Archive).write (zeros 65919) =
      some { limit := ARCHIVE_SIZE
             write_buffer := zeros 65919
             write_serial_number := 1
             read_buffer := none
             read_serial_number := 0
             read_offset := 0
             disk := [(0, zeros (0 + 65919 * 63))] } := by
    unfold Archive.write Archive.flush
    dsimp only []
    split_ifs with h1 h2 h3
    case _ => simp [Archive.new]
    case _ =>
      exfalso
      rw [zeros_length] at h3
      revert h3
      decide
    case _ =>
      exfalso
      rw [zeros_length] at h2
      revert h2
      decide
    case _ =>
      exfalso
      rw [zeros_length] at h1
      revert h1
      decide
  rw [show (64 : Nat) = 63 + 1 from rfl, List.replicate_succ', hstart,
    writeAll_append, h63, Option.some_bind, writeAll_cons_some _ _ _ _ hw, writeAll_nil]
  simp [zeros_length]

/-- Claim C7 (amended): along any sequence of archive writes on a fresh
production archive, every persisted segment is strictly shorter than
ARCHIVE_SIZE (at most ARCHIVE_SIZE − 1 bytes): the buffer is at most
ARCHIVE_SIZE − MAX_COMPRESSED_CHUNK_SIZE before a block is appended, but the
appended block may add up to MAX_COMPRESSED_CHUNK_SIZE − 1 further bytes, so
ARCHIVE_SIZE − MAX_COMPRESSED_CHUNK_SIZE does not bound the segment. -/
theorem claim_C7 (vs : List (List Nat)) (a' : Archive)
    (h : writeAll (Archive.new ARCHIVE_SIZE) vs = some a') :
    (∀ s ∈ a'.disk, s.2.length < ARCHIVE_SIZE) ∧
    (∀ s ∈ a'.flush.disk, s.2.length < ARCHIVE_SIZE) := by
  obtain ⟨hl, hb, hd⟩ := writeAll_inv vs (Archive.new ARCHIVE_SIZE) a' h
    (by decide) (by decide) (by simp [Archive.new])
  have hl' : a'.limit = ARCHIVE_SIZE := hl
  constructor
  · intro s hs
    have := hd s hs
    simpa [Archive.new] using this
  · intro s hs
    unfold Archive.flush at hs
    by_cases hbz : a'.write_buffer.length > 0
    · rw [if_pos hbz] at hs
      dsimp only [] at hs
      rcases List.mem_append.mp hs with hs1 | hs2
      · have := hd s hs1
        simpa [Archive.new] using this
      · rw [List.mem_singleton.mp hs2]
        have hb' := hb
        simp only [Archive.new] at hb'
        exact hb'
    · rw [if_neg hbz] at hs
      have := hd s hs
      simpa [Archive.new] using this

/-- Claim C7 witness: a concrete application of `claim_C7` after a single
two-byte write. -/
theorem claim_C7_witness :
    writeAll (Archive.new ARCHIVE_SIZE) [[1, 2]] = some c7WitState ∧
    (∀ s ∈ c7WitState.disk, s.2.length < ARCHIVE_SIZE) ∧
    (∀ s ∈ c7WitState.flush.disk, s.2.length < ARCHIVE_SIZE) :=
  ⟨by decide, (claim_C7 [[1, 2]] c7WitState (by decide)).1,
    (claim_C7 [[1, 2]] c7WitState (by decide)).2⟩

/-- Claim C6 (amended): along any sequence of pushes on a fresh production
Record, every buffer handed to the compressing flush is at most
RECORD_SIZE + 4 bytes long: the four-byte length prefix of an item that
exactly fills the record can spill past RECORD_SIZE, so RECORD_SIZE itself is
not an upper bound, but RECORD_SIZE + 4 is. -/
theorem claim_C6 (compress : List Nat → List Nat) (vs : List (List Nat)) (r' : Record)
    (h : pushAll compress (Record.new ARCHIVE_SIZE RECORD_SIZE) vs = some r') :
    ∀ x ∈ r'.flushLog, x ≤ RECORD_SIZE + 4 := by
  have hinv := pushAll_inv compress vs (Record.new ARCHIVE_SIZE RECORD_SIZE) r' h
    (by simp [Record.new]) (by simp [Record.new])
  intro x hx
  have hxx := hinv.2.2 x hx
  simpa [Record.new] using hxx

/-- Claim C6 witness: a concrete application of `claim_C6` to the push of a
single one-byte item. -/
theorem claim_C6_witness :
    pushAll id (Record.new ARCHIVE_SIZE RECORD_SIZE) [[1]] = some c6WitState ∧
    ∀ x ∈ c6WitState.flushLog, x ≤ RECORD_SIZE + 4 :=
  ⟨by decide, claim_C6 id [[1]] c6WitState (by decide)⟩

/-- Claim C10: the four-byte little-endian length prefix round-trips exactly
below 2^32 and otherwise encodes the length modulo 2^32. -/
theorem claim_C10 (n : Nat) :
    (n < 2 ^ 32 → slice_u8_to_usize (usize_to_slice_u8 n) = n) ∧
    slice_u8_to_usize (usize_to_slice_u8 n) = n % 2 ^ 32 := by
  have h2 : slice_u8_to_usize (usize_to_slice_u8 n) = n % 2 ^ 32 := by
    apply Nat.eq_of_testBit_eq
    intro i
    simp only [slice_u8_to_usize, usize_to_slice_u8, List.getD_cons_zero, List.getD_cons_succ,
      show (0xff : Nat) = 2 ^ 8 - 1 from rfl, Nat.testBit_or, Nat.testBit_shiftLeft,
      Nat.testBit_and, Nat.testBit_shiftRight, Nat.testBit_two_pow_sub_one,
      Nat.testBit_mod_two_pow]
    by_cases h0 : i < 8
    · simp [h0, show ¬ 8 ≤ i by omega, show ¬ 16 ≤ i by omega, show ¬ 24 ≤ i by omega,
        show i < 32 by omega]
    · by_cases h1 : i < 16
      · have e : 8 + (i - 8) = i := by omega
        simp [h0, e, show 8 ≤ i by omega, show ¬ 16 ≤ i by omega, show ¬ 24 ≤ i by omega,
          show i - 8 < 8 by omega, show i < 32 by omega]
      · by_cases h2 : i < 24
        · have e : 16 + (i - 16) = i := by omega
          simp [h0, h1, e, show 8 ≤ i by omega, show 16 ≤ i by omega,
            show ¬ 24 ≤ i by omega, show ¬ i - 8 < 8 by omega,
            show i - 16 < 8 by omega, show i < 32 by omega]
        · by_cases h3 : i < 32
          · have e : 24 + (i - 24) = i := by omega
            simp [h0, h1, h2, e, show 8 ≤ i by omega, show 16 ≤ i by omega,
              show 24 ≤ i by omega, show ¬ i - 8 < 8 by omega,
              show ¬ i - 16 < 8 by omega, show i - 24 < 8 by omega, show i < 32 by omega]
          · simp [show ¬ i - 8 < 8 by omega, show ¬ i - 16 < 8 by omega,
              show ¬ i - 24 < 8 by omega, show ¬ i < 8 by omega, show ¬ i < 32 by omega]
  exact ⟨fun hlt => by rw [h2, Nat.mod_eq_of_lt hlt], h2⟩

/-- Claim C1: executed at the failing input, push panics.  Pushing a
65529-byte item leaves 65533 bytes in the record buffer; pushing a 65537-byte
item next skips the initial flush (the item exceeds the record limit), so the
loop computes `limit - buffer.len() = 65536 - 65537` in usize arithmetic and
panics, contradicting the claim (and the source's own comment) that any
sequence of item sizes can be pushed and then pulled back. -/
theorem claim_C1 :
    pushAll id (Record.new ARCHIVE_SIZE RECORD_SIZE) [zeros 65529, zeros 65537] = none := by
  have e1 : Record.push id (Record.new ARCHIVE_SIZE RECORD_SIZE) (zeros 65529) =
      some ({ archive_location := { archive_set := 0, set_offset := 0 },
              uncompressed_offset := 0 }, c1St1) := by
    rw [push_small_eval id (Record.new ARCHIVE_SIZE RECORD_SIZE) (zeros 65529)
      (by rw [zeros_length]; decide) (by rw [zeros_length]; decide)]
    simp [Record.new, Archive.new, Archive.write_location, ReadBuf.new, c1St1, zeros_length,
      RECORD_SIZE, ARCHIVE_SIZE, MAX_COMPRESSED_CHUNK_SIZE]
  have hlen1 : c1St1.write_buffer.length = 65533 := by
    simp [c1St1, zeros_length, usize_to_slice_u8_length]
  have e2 : Record.push id c1St1 (zeros 65537) = none :=
    push_large_panic id c1St1 (zeros 65537)
      (by rw [zeros_length]; decide)
      (by rw [hlen1]; decide)
  rw [pushAll_cons_some id _ _ _ _ c1St1 e1, pushAll_cons_none id _ _ _ e2]

/-- Claim C5: executed at the failing input, seek-then-pull returns the wrong
item.  The location returned for the second pushed item `[2]` has
uncompressed offset 5, yet seeking to its archive location and pulling
returns the first item `[1]`: Record::seek never uses the uncompressed
offset (nor the dead `read_offset` field), so pull restarts at the beginning
of the decompressed block. -/
theorem claim_C5 :
    c5Run = some ({ archive_location := { archive_set := 0, set_offset := 0 },
                    uncompressed_offset := 5 }, some [1]) ∧
    some [1] ≠ some ([2] : List Nat) :=
  ⟨by decide, by decide⟩

/-- Claim C6 counterexample: pushing a 65529+4-byte record then one more item
makes flush compress a 65537-byte buffer, exceeding RECORD_SIZE, so the
uncompressed buffer is not bounded by RECORD_SIZE at flush time. -/
theorem claim_C6_counterexample :
    (pushAll id (Record.new ARCHIVE_SIZE RECORD_SIZE)
        [zeros 65533, [0]]).map Record.flushLog = some [65537] ∧
    ¬ (65537 ≤ RECORD_SIZE) := by
  refine ⟨?_, by decide⟩
  have e1 : Record.push id (Record.new ARCHIVE_SIZE RECORD_SIZE) (zeros 65533) =
      some ({ archive_location := { archive_set := 0, set_offset := 0 },
              uncompressed_offset := 0 }, c6St1) := by
    rw [push_small_eval id (Record.new ARCHIVE_SIZE RECORD_SIZE) (zeros 65533)
      (by rw [zeros_length]; decide) (by rw [zeros_length]; decide)]
    simp [Record.new, Archive.new, Archive.write_location, ReadBuf.new, c6St1, zeros_length,
      RECORD_SIZE, ARCHIVE_SIZE, MAX_COMPRESSED_CHUNK_SIZE]
  have hlen1 : c6St1.write_buffer.length = 65537 := by
    simp [c6St1, zeros_length, usize_to_slice_u8_length]
  have ef : Record.flush id c6St1 = some c6St2 := by
    rw [flush_eval id c6St1
      (by rw [hlen1]; decide)
      (by simp only [id_eq]; rw [hlen1]; decide)
      (by simp [c6St1, Archive.new, MAX_COMPRESSED_CHUNK_SIZE, ARCHIVE_SIZE])
      (by
        simp [c6St1, Archive.new, usize_to_slice_u8_length, MAX_COMPRESSED_CHUNK_SIZE,
          ARCHIVE_SIZE])]
    simp [c6St1, c6St2, Archive.new, ReadBuf.new, zeros_length, usize_to_slice_u8_length,
      RECORD_SIZE, ARCHIVE_SIZE]
  have e2 : Record.push id c6St1 [0] =
      some ({ archive_location := c6St2.archive.write_location,
              uncompressed_offset := c6St2.write_buffer.length },
            { c6St2 with
              write_buffer := (c6St2.write_buffer ++ usize_to_slice_u8 ([0] : List Nat).length)
                ++ [0] }) :=
    push_after_flush id c6St1 [0]
      (by
        constructor
        · decide
        · rw [hlen1]; decide)
      c6St2 ef (by decide)
  rw [pushAll_cons_some id _ _ _ _ c6St1 e1, pushAll_cons_some id _ _ _ _ _ e2,
    pushAll_nil]
  simp [c6St2]

/-- Claim C10 witness: a concrete application of `claim_C10` at 5 and at a
value at least 2^32. -/
theorem claim_C10_witness :
    (5 < 2 ^ 32 ∧ slice_u8_to_usize (usize_to_slice_u8 5) = 5) ∧
    slice_u8_to_usize (usize_to_slice_u8 (2 ^ 32 + 7)) = (2 ^ 32 + 7) % 2 ^ 32 :=
  ⟨⟨by decide, (claim_C10 5).1 (by decide)⟩, (claim_C10 (2 ^ 32 + 7)).2⟩


/-- Claim C2 counterexample: the claim says the dual-index invariant holds
after any sequence of FileStore operations including add_file in ingest mode,
but FileStore::add_file inserts the new entry into FileIndex only and never
into HashIndex, so after ingesting a single file on a fresh store the entry
is a FileIndex key that appears in no HashIndex list at all. -/
theorem claim_C2_counterexample :
    FileStore.add_file (fun _ => 7) (FileStore.new cfgC2) eC2 [] = some fsC2 ∧
    ¬ storeInv fsC2 := by
  constructor
  · simp [FileStore.add_file, FileStore.new, idxContains, idxInsert, idxGet,
      entryFingerprint, fingerprint, hash_file, hashChunks, CHUNK_SIZE,
      eC2, cfgC2, fsC2, presentInsert, Nat.zero_xor]
  · intro hinv
    obtain ⟨ha, _⟩ := hinv
    obtain ⟨⟨l, hl, _⟩, _⟩ := ha (eC2, 7) (by simp [fsC2])
    simp [fsC2, hidxGet] at hl

/-- Claim C2 (amended): restricted to FileStore::read of an archive stream of
pairwise-distinct entries on a fresh store, the dual-index invariant does
hold: every FileIndex entry appears in exactly the HashIndex list stored
under its fingerprint, and each HashIndex list holds exactly the entries
mapping to its fingerprint, without duplicates.  The original claim extends
this to add_file, which claim_C2_counterexample refutes. -/
theorem claim_C2 (cfg : Config) (ps : List (Entry × Nat))
    (hnd : (ps.map Prod.fst).Nodup) :
    storeInv (FileStore.read (FileStore.new cfg) ps) := by
  refine invFull_storeInv _ (read_invFull ps (FileStore.new cfg) (InvFull_new cfg) ?_ hnd)
  intro p hp
  simp [FileStore.new, idxContains]

/-- Claim C2 witness: the amended invariant at a concrete one-pair stream. -/
theorem claim_C2_witness :
    (([((eC2 : Entry), (5 : Nat))].map Prod.fst).Nodup) ∧
    storeInv (FileStore.read (FileStore.new cfgC2) [(eC2, 5)]) :=
  ⟨by simp, claim_C2 cfgC2 [(eC2, 5)] (by simp)⟩


/-- Closed form of the hash_file chunk loop: from position pos it hashes
(len - pos - 1) / CHUNK_SIZE full chunks and then one tail chunk. -/
theorem hashChunks_char (H : List Nat → Nat) (c : List Nat) :
    ∀ (n len pos : Nat), len - pos ≤ n →
      hashChunks H c len pos =
        (List.range ((len - pos - 1) / CHUNK_SIZE)).map
            (fun i => H ((c.drop (pos + i * CHUNK_SIZE)).take CHUNK_SIZE))
          ++ [H (c.drop (pos + (len - pos - 1) / CHUNK_SIZE * CHUNK_SIZE))] := by
  intro n
  induction n with
  | zero =>
    intro len pos hle
    have hc : (0:Nat) < CHUNK_SIZE := by decide
    have hnot : ¬ (pos + CHUNK_SIZE < len) := by omega
    rw [hashChunks, if_neg hnot]
    have hd : (len - pos - 1) / CHUNK_SIZE = 0 := Nat.div_eq_of_lt (by omega)
    rw [hd]
    simp
  | succ n ih =>
    intro len pos hle
    have hc : (0:Nat) < CHUNK_SIZE := by decide
    by_cases h : pos + CHUNK_SIZE < len
    · rw [hashChunks, if_pos h, ih len (pos + CHUNK_SIZE) (by omega)]
      have hge : CHUNK_SIZE ≤ len - pos - 1 := by omega
      have harg : len - pos - 1 - CHUNK_SIZE = len - (pos + CHUNK_SIZE) - 1 := by
        omega
      have hdiv : (len - pos - 1) / CHUNK_SIZE
          = (len - (pos + CHUNK_SIZE) - 1) / CHUNK_SIZE + 1 := by
        rw [Nat.div_eq_sub_div hc hge, harg]
      rw [hdiv, List.range_succ_eq_map, List.map_cons, List.map_map,
        List.cons_append]
      refine congrArg₂ List.cons ?_ (congrArg₂ (· ++ ·) ?_ ?_)
      · simp
      · apply List.map_congr_left
        intro i _
        show H ((c.drop (pos + CHUNK_SIZE + i * CHUNK_SIZE)).take CHUNK_SIZE)
          = H ((c.drop (pos + Nat.succ i * CHUNK_SIZE)).take CHUNK_SIZE)
        have he : pos + CHUNK_SIZE + i * CHUNK_SIZE
            = pos + Nat.succ i * CHUNK_SIZE := by
          rw [Nat.succ_mul]
          omega
        rw [he]
      · have he2 : pos + CHUNK_SIZE
            + (len - (pos + CHUNK_SIZE) - 1) / CHUNK_SIZE * CHUNK_SIZE
            = pos + ((len - (pos + CHUNK_SIZE) - 1) / CHUNK_SIZE + 1)
              * CHUNK_SIZE := by
          rw [Nat.add_mul, Nat.one_mul]
          omega
        rw [he2]
    · rw [hashChunks, if_neg h]
      have hd : (len - pos - 1) / CHUNK_SIZE = 0 := Nat.div_eq_of_lt (by omega)
      rw [hd]
      simp

/-- The chunk-hash list computed by hash_file is the image under the hash of
the codeChunks decomposition. -/
theorem hash_file_eq_codeChunks (H : List Nat → Nat) (c : List Nat) :
    hash_file H c c.length = (codeChunks c).map H := by
  rw [hash_file, hashChunks_char H c c.length c.length 0 (by omega)]
  simp [codeChunks, Function.comp]

/-- The fingerprint fold of add_file over the actual chunk decomposition. -/
theorem fingerprint_eq (H : List Nat → Nat) (c : List Nat) :
    fingerprint H c c.length
      = (codeChunks c).foldl (fun acc x => acc ^^^ H x) c.length := by
  rw [fingerprint, hash_file_eq_codeChunks, List.foldl_map]

/-- Claim C4 counterexample: for a regular file whose length is exactly
CHUNK_SIZE the claim predicts one full chunk plus an empty tail chunk, but
the strict `pos + CHUNK_SIZE < len` loop in hash_file produces no full chunk
and a single full-length tail, so a hash that distinguishes the empty chunk
separates the computed fingerprint (65536) from the claimed one (65537). -/
theorem claim_C4_counterexample :
    (zeros CHUNK_SIZE).length = eC4.len ∧ eC4.is_file = true ∧
    entryFingerprint hC4 eC4 (zeros CHUNK_SIZE) = 65536 ∧
    claimedFingerprint hC4 (zeros CHUNK_SIZE) = 65537 := by
  refine ⟨by simp [zeros_length, eC4], rfl, ?_, ?_⟩
  · rw [entryFingerprint]
    rw [if_pos (by decide : eC4.is_file = true)]
    rw [(by decide : eC4.len = 65536)]
    rw [fingerprint, hash_file, hashChunks,
      if_neg (by decide : ¬ ((0:Nat) + CHUNK_SIZE < 65536))]
    rw [List.drop_zero]
    rw [show hC4 (zeros CHUNK_SIZE) = 0 from by
      simp [hC4, zeros_length, CHUNK_SIZE]]
    simp
  · rw [claimedFingerprint, claimedChunks, zeros_length]
    rw [(by decide : CHUNK_SIZE / CHUNK_SIZE = 1), (by decide : List.range 1 = [0])]
    rw [List.map_cons, List.map_nil]
    rw [Nat.zero_mul, List.drop_zero, Nat.one_mul, List.cons_append,
      List.nil_append, List.foldl_cons, List.foldl_cons, List.foldl_nil]
    rw [show hC4 ((zeros CHUNK_SIZE).take CHUNK_SIZE) = 0 from by
      simp [hC4, List.length_take, zeros_length, CHUNK_SIZE]]
    rw [show hC4 ((zeros CHUNK_SIZE).drop CHUNK_SIZE) = 1 from by
      simp [hC4, List.length_drop, zeros_length]]
    rw [(by decide : CHUNK_SIZE = 65536)]
    decide

/-- Claim C4 (amended): for every content matching the entry length, the
fingerprint of a regular file is the length-seeded XOR fold of the hash over
codeChunks, whose decomposition has (len - 1) / CHUNK_SIZE full chunks and a
non-empty tail for non-empty files (one fewer full chunk than the claim when
len is a positive exact multiple of CHUNK_SIZE); non-regular objects
fingerprint to 0. -/
theorem claim_C4 (H : List Nat → Nat) (e : Entry) (c : List Nat)
    (hlen : c.length = e.len) :
    entryFingerprint H e c =
      if e.is_file then (codeChunks c).foldl (fun acc x => acc ^^^ H x) c.length
      else 0 := by
  rw [entryFingerprint]
  by_cases hf : e.is_file
  · rw [if_pos hf, if_pos hf, ← hlen, fingerprint_eq]
  · rw [if_neg hf, if_neg hf, ite_self]

/-- Claim C4 witness: the amended fingerprint identity at a concrete entry
and content. -/
theorem claim_C4_witness :
    (([] : List Nat).length = eC2.len) ∧
    entryFingerprint (fun _ => 7) eC2 [] =
      (if eC2.is_file then
        (codeChunks []).foldl (fun acc x => acc ^^^ (fun _ => 7) x)
          ([] : List Nat).length
      else 0) :=
  ⟨rfl, claim_C4 (fun _ => 7) eC2 [] rfl⟩

end FindDups

